import Mathlib

/-!
# Arcella layered-configuration resolution engine: a shallow embedding

This file embeds the Rust configuration engine of the Arcella runtime
(`arcella/src/config/mod.rs`, `arcella-fs-utils/src/{toml,config_loader,lib}.rs`)
into Lean 4 and proves/refutes the specification claims about it.

Modelling conventions:
* Rust `String`/`PathBuf` are Lean `String`s; all string operations are defined
  on the underlying `List Char` (`String.data`).  The Rust operations are
  byte-based, which agrees with the character-based model on ASCII data (every
  constant the code compares against — `"#redef"`, `".toml"`,
  `".template.toml"`, `"arcella.custom"`, … — is ASCII).
* `indexmap::IndexMap` is an insertion-ordered association list
  (`List (String × α)`); `insert` replaces in place or appends.
  `indexmap::IndexSet` is a `List String` without duplicates, where an
  element's index is its list position.  `HashSet` is a `List` used only
  through membership and first-seen deduplication.
* A Rust panic (`unwrap` on a missing index) is modelled by `Option.none`;
  Rust `Result` is `Except`.
* `f64` payloads (`OrderedFloat<f64>`) are carried opaquely as their 64-bit
  pattern (a `Nat`); no claim inspects float payloads.
-/

set_option autoImplicit false

namespace Arcella

/-! ## Character and string primitives (models of Rust `str`/`Path` operations) -/

/-- Model of Rust `char::to_ascii_lowercase` (and of `str::to_lowercase`
restricted to ASCII data, the only data the engine lowercases). -/
def charLower (c : Char) : Char :=
  if 'A' ≤ c ∧ c ≤ 'Z' then Char.ofNat (c.toNat + 32) else c

/-- Model of Rust `str::ends_with` (byte suffix test; char-based on ASCII). -/
def strEndsWith (s suffix : String) : Bool :=
  suffix.data.isSuffixOf s.data

/-- Model of Rust `str::starts_with`. -/
def strStartsWith (s pre : String) : Bool :=
  pre.data.isPrefixOf s.data

/-- Model of the byte slice `&key[..key.len() - n]` for an `n`-byte ASCII
suffix: drop the last `n` characters. -/
def strDropRight (s : String) (n : Nat) : String :=
  ⟨s.data.take (s.data.length - n)⟩

/-- Lexicographic order on character lists (byte order on ASCII); total,
reflexive.  This is the order underlying `Ord for PathBuf` in the model. -/
def charListLe : List Char → List Char → Bool
  | [], _ => true
  | _ :: _, [] => false
  | a :: as, b :: bs =>
    if a = b then charListLe as bs
    else decide (a.toNat < b.toNat)

/-- Model of `PathBuf` comparison used by `Vec::<PathBuf>::sort()`. -/
def pathLe (p q : String) : Bool := charListLe p.data q.data

/-- Model of `Path::is_absolute` on Unix: the path begins with `/`. -/
def pathIsAbsolute (p : String) : Bool :=
  match p.data with
  | '/' :: _ => true
  | _ => false

/-- Model of `Path::join`: an absolute right operand replaces the base,
otherwise the components are concatenated with a `/` separator. -/
def pathJoin (base rel : String) : String :=
  if pathIsAbsolute rel then rel else ⟨base.data ++ '/' :: rel.data⟩

/-- Model of `Path::file_name`: the final path component (text after the last
`/`). -/
def pathFileName (p : String) : String :=
  ⟨(p.data.reverse.takeWhile (fun c => c ≠ '/')).reverse⟩

/-- Model of `Path::extension`: the portion of the file name after its final
`.`, provided the part before that dot is nonempty (so `".bashrc"` has no
extension), and `none` when the file name contains no dot at all. -/
def pathExtension (p : String) : Option String :=
  let f := (pathFileName p).data
  let afterDot := f.reverse.takeWhile (fun c => c ≠ '.')
  if afterDot.length = f.length then none
  else if f.length - afterDot.length - 1 = 0 then none
  else some ⟨afterDot.reverse⟩

/-- Model of `OsStr::eq_ignore_ascii_case`. -/
def eqIgnoreAsciiCase (a b : String) : Bool :=
  a.data.map charLower == b.data.map charLower

/-! ## Association lists: the `IndexMap` model -/

/-- `IndexMap` lookup (`get` / `entry` discrimination). -/
def alGet {α : Type} : List (String × α) → String → Option α
  | [], _ => none
  | (k', v) :: rest, k => if k' = k then some v else alGet rest k

/-- `IndexMap::insert` / `Entry::insert`: replace the value in place when the
key is present, otherwise append the pair, preserving insertion order. -/
def alInsert {α : Type} : List (String × α) → String → α → List (String × α)
  | [], k, v => [(k, v)]
  | (k', v') :: rest, k, v =>
    if k' = k then (k, v) :: rest else (k', v') :: alInsert rest k v

/-- Keys of an association list. -/
def alKeys {α : Type} (m : List (String × α)) : List String := m.map Prod.fst

/-- First-seen deduplication of a list (used to model iterating a `HashSet`
built from a list: each distinct element once; the final consumers sort, so
the retained order is irrelevant to them). -/
def dedupKeepFirst : List String → List String
  | [] => []
  | p :: rest => p :: (dedupKeepFirst rest).filter (fun q => q ≠ p)

/-- `IndexSet::get_index_of`: position of an element. -/
def indexOfPath (files : List String) (p : String) : Option Nat :=
  List.findIdx? (fun q => q = p) files

/-- `IndexSet::insert_full`: index of an existing element, or append and
return the fresh index. -/
def insertFull (files : List String) (p : String) : Nat × List String :=
  match indexOfPath files p with
  | some i => (i, files)
  | none => (files.length, files ++ [p])

/-! ## Core data model (`arcella_types::config::Value`, warnings, errors) -/

/-- `arcella_types::value::Value`.  `Map` is modelled as an association list in
the order the engine inserts entries (Rust uses an unordered `HashMap`; the
engine only ever builds and stores these maps, never looks keys up in them).
`float` carries the 64-bit pattern opaquely. -/
inductive Value where
  | array : List Value → Value
  | str : String → Value
  | int : Int → Value
  | float : Nat → Value
  | boolean : Bool → Value
  | map : List (String × Value) → Value
  | null : Value
  | typedError : String → String → Value
deriving Repr

/-- `Value` test used by the loader's null-scan (`matches!(value, Null)`). -/
def Value.isNull : Value → Bool
  | .null => true
  | _ => false

/-- `arcella_types::config::ConfigValues = IndexMap<String, (Value, usize)>`:
dotted key ↦ (value, provenance file index). -/
abbrev ConfigValues := List (String × Value × Nat)

/-- `arcella_fs_utils::TomlFileData`. -/
structure TomlFileData where
  includes : List String
  values : ConfigValues
deriving Repr

/-- `arcella_fs_utils::types::TraversalResult`. -/
inductive TraversalResult where
  | full
  | pruned
deriving DecidableEq, Repr

/-- `arcella_fs_utils::ConfigLoadWarning`; paths are strings. -/
inductive ConfigLoadWarning where
  | internal : String → ConfigLoadWarning
  | nullValueDetected : (key : String) → (file : String) → ConfigLoadWarning
  | valueError : (key : String) → (error : String) → (file : String) → ConfigLoadWarning
  | duplicateInclude : (path : String) → (includedFrom : String) → ConfigLoadWarning
  | retriedProcessing : (path : String) → ConfigLoadWarning
  | skippedInvalidFile : (path : String) → ConfigLoadWarning
  | unknownTomlType : (key : String) → (typeName : String) → (file : String) → ConfigLoadWarning
  | maxDepthReached : (path : String) → ConfigLoadWarning
  | pruned : (path : String) → ConfigLoadWarning
deriving DecidableEq, Repr

/-- `ArcellaUtilsError`: the two fatal error families the engine raises.  The
Rust `TOML` message interpolates a debug dump of the offending value; the model
keeps the fixed message prefix only. -/
inductive ArcellaUtilsError where
  | toml : String → ArcellaUtilsError
  | ioWithPath : (path : String) → ArcellaUtilsError
deriving DecidableEq, Repr

/-! ## Constants (from `config/mod.rs`, `config_loader.rs`, `types.rs`) -/

def REDEF_SUFFIX : String := "#redef"
def MAIN_CONFIG_FILENAME : String := "arcella.toml"
def DEFAULT_CONFIG_FILENAME : String := "default_config.toml"
def MAX_CONFIG_DEPTH : Nat := 5
def MAX_TOML_DEPTH : Nat := 10
def TEMPLATE_TOML_SUFFIX : String := ".template.toml"
def INCLUDES_KEY : String := "includes"

/-! ## Merge engine (`arcella/src/config/mod.rs::merge_config`) -/

/-- `config::ResolvedValue`: working-map entry of the reconciliation pass. -/
structure ResolvedValue where
  value : Value
  source_layer : Nat
  source_file : Nat
  redef_allowed_by : Option Nat
deriving Repr

/-- The `#redef` suffix strip at the top of the reconciliation loop:
`(actual_key, is_redef)`. -/
def stripRedef (key : String) : String × Bool :=
  if strEndsWith key REDEF_SUFFIX then
    (strDropRight key 6, true)
  else
    (key, false)

/-- One entry of one layer in the reconciliation pass (the body of the inner
`for (key, (value, file_idx))` loop of `merge_config`). -/
def mergeStep (layer_idx : Nat)
    (acc : List (String × ResolvedValue) × List ConfigLoadWarning)
    (entry : String × Value × Nat) :
    List (String × ResolvedValue) × List ConfigLoadWarning :=
  let key := entry.1
  let value := entry.2.1
  let file_idx := entry.2.2
  let ak := (stripRedef key).1
  let is_redef := (stripRedef key).2
  match alGet acc.1 ak with
  | some e =>
    if !is_redef then
      (alInsert acc.1 ak
         { e with value := value, source_layer := layer_idx, source_file := file_idx },
       acc.2 ++ [ConfigLoadWarning.valueError ak
         ("Value from file " ++ Nat.repr e.source_file ++
          " ignored due to no #redef flag in layer " ++ Nat.repr layer_idx)
         ("layer_" ++ Nat.repr layer_idx ++ ".toml")])
    else
      (alInsert acc.1 ak { e with redef_allowed_by := some file_idx }, acc.2)
  | none =>
    (acc.1 ++ [(ak, ⟨value, layer_idx, file_idx, none⟩)], acc.2)

/-- All entries of one layer, in stored order. -/
def mergeLayer (layer_idx : Nat) (cfg : TomlFileData)
    (acc : List (String × ResolvedValue) × List ConfigLoadWarning) :
    List (String × ResolvedValue) × List ConfigLoadWarning :=
  cfg.values.foldl (mergeStep layer_idx) acc

/-- Reconciliation pass: layers from last (deepest include, lowest priority)
to first (primary file, highest priority). -/
def reconcile (configs : List TomlFileData) (warnings : List ConfigLoadWarning) :
    List (String × ResolvedValue) × List ConfigLoadWarning :=
  configs.enum.reverse.foldl (fun acc p => mergeLayer p.1 p.2 acc) ([], warnings)

/-- The `is_newable` test of the application pass (verbatim from the source:
`key.starts_with("arcella.custom") || key.starts_with("arcella.modules")`). -/
def isNewable (key : String) : Bool :=
  strStartsWith key "arcella.custom" || strStartsWith key "arcella.modules"

/-- One preliminary entry in the schema-gated application pass (the body of
the `for (key, preliminary_value)` loop of `merge_config`). -/
def applyStep (main_idx : Nat)
    (acc : ConfigValues × List ConfigLoadWarning)
    (e : String × ResolvedValue) : ConfigValues × List ConfigLoadWarning :=
  let key := e.1
  let pv := e.2
  let insert_index := pv.source_layer
  match alGet acc.1 key with
  | some _ =>
    if pv.source_file = main_idx then
      (alInsert acc.1 key (pv.value, pv.source_file), acc.2)
    else if pv.redef_allowed_by = some main_idx then
      (alInsert acc.1 key (pv.value, pv.source_file), acc.2)
    else
      (acc.1, acc.2 ++ [ConfigLoadWarning.valueError key
        ("Value from file " ++ Nat.repr pv.source_file ++
         " ignored due to #redef missing in arcella.toml")
        ("layer_" ++ Nat.repr insert_index ++ ".toml")])
  | none =>
    if isNewable key then
      (acc.1 ++ [(key, pv.value, pv.source_file)], acc.2)
    else
      (acc.1, acc.2 ++ [ConfigLoadWarning.valueError key
        ("Value from layer " ++ Nat.repr insert_index ++
         " ignored due to missing in default config")
        ("layer_" ++ Nat.repr insert_index ++ ".toml")])

/-- Seed of the application pass: every default-schema key, attributed to the
default schema's own file index. -/
def seedDefaults (default_config : TomlFileData) (default_idx : Nat) : ConfigValues :=
  default_config.values.foldl (fun m e => alInsert m e.1 (e.2.1, default_idx)) []

/-- `merge_config`.  Both `get_index_of(..).unwrap()` calls of the source are
modelled by the `Option`: `none` is the panic that occurs when the primary
file's path or the default-schema filename is missing from `config_files`. -/
def merge_config (default_config : TomlFileData) (configs : List TomlFileData)
    (config_files : List String) (config_dir : String)
    (warnings : List ConfigLoadWarning) :
    Option (ConfigValues × List ConfigLoadWarning) :=
  let pre := reconcile configs warnings
  match indexOfPath config_files (pathJoin config_dir MAIN_CONFIG_FILENAME),
        indexOfPath config_files DEFAULT_CONFIG_FILENAME with
  | some main_idx, some default_idx =>
    some (pre.1.foldl (applyStep main_idx) (seedDefaults default_config default_idx, pre.2))
  | _, _ => none

/-! ## TOML document model and traversal (`arcella-fs-utils/src/toml.rs`)

TOML text parsing itself is the black-box `toml_edit` parser (out of scope per
the spec); documents enter the model already parsed, as `toml_edit` ASTs. -/

/-- `toml_edit::Value`.  `datetime` carries its text opaquely; `float` its
bit pattern. -/
inductive TomlEditValue where
  | str : String → TomlEditValue
  | integer : Int → TomlEditValue
  | float : Nat → TomlEditValue
  | boolean : Bool → TomlEditValue
  | datetime : String → TomlEditValue
  | array : List TomlEditValue → TomlEditValue
  | inlineTable : List (String × TomlEditValue) → TomlEditValue
deriving Repr

/-- `toml_edit::Item`.  A `Table` is its entries in document order; an
`ArrayOfTables` is the list of its tables. -/
inductive TomlEditItem where
  | none : TomlEditItem
  | value : TomlEditValue → TomlEditItem
  | table : List (String × TomlEditItem) → TomlEditItem
  | arrayOfTables : List (List (String × TomlEditItem)) → TomlEditItem
deriving Repr

/-- `toml_edit::Value::as_str`. -/
def TomlEditValue.asStr : TomlEditValue → Option String
  | .str s => some s
  | _ => none

mutual

/-- `ValueExt::from_toml_value`: scalar/array conversion; datetime and inline
tables (in value position the latter is intercepted earlier) are unsupported
and fail the parse. -/
def fromTomlValue : TomlEditValue → Except ArcellaUtilsError Value
  | .str s => .ok (.str s)
  | .integer i => .ok (.int i)
  | .float f => .ok (.float f)
  | .boolean b => .ok (.boolean b)
  | .array l => do
    let inner ← fromTomlValueList l
    .ok (.array inner)
  | .datetime _ => .error (.toml "Unsupported TOML value type")
  | .inlineTable _ => .error (.toml "Unsupported TOML value type")

/-- Elementwise conversion of a TOML array's contents. -/
def fromTomlValueList : List TomlEditValue → Except ArcellaUtilsError (List Value)
  | [] => .ok []
  | v :: rest => do
    let v' ← fromTomlValue v
    let rest' ← fromTomlValueList rest
    .ok (v' :: rest')

end

/-- `inline_table_to_table`: wrap each inline-table value as an item. -/
def inline_table_to_table (l : List (String × TomlEditValue)) :
    List (String × TomlEditItem) :=
  l.map (fun e => (e.1, TomlEditItem.value e.2))

/-- Model of `current_path.join(".")`. -/
def joinPath : List String → String
  | [] => ""
  | [s] => s
  | s :: rest => s ++ "." ++ joinPath rest

/-- The strings a key named `includes` contributes: every string element of an
array value, a bare string value itself, nothing for any other item. -/
def includesFrom : TomlEditItem → List String
  | .value (.array arr) => arr.filterMap TomlEditValue.asStr
  | .value single => (single.asStr).toList
  | _ => []

/-- Pruned-dominant combination of traversal results. -/
def TraversalResult.combine : TraversalResult → TraversalResult → TraversalResult
  | .pruned, _ => .pruned
  | _, r => r

mutual

/-- `collect_paths_recursive`: walk one TOML item, building dotted keys from
`current_path`, diverting `includes` directives and storing converted values
tagged with `file_idx`. -/
def collect_paths_recursive (item : TomlEditItem) (current_path : List String)
    (file_idx : Nat) (includes : List String) (values : ConfigValues)
    (depth : Nat) :
    Except ArcellaUtilsError (List String × ConfigValues × TraversalResult) :=
  if _h : depth > MAX_TOML_DEPTH then
    .ok (includes, values, .pruned)
  else
    match item with
    | .value (.inlineTable inline) =>
      table_to_value_map_recursive (inline_table_to_table inline) current_path
        file_idx includes values depth
    | .table t =>
      table_to_value_map_recursive t current_path file_idx includes values depth
    | .arrayOfTables arr => do
      let (includes', elems, childRes) ←
        convert_array_of_tables_to_value arr depth file_idx includes
      .ok (includes',
           alInsert values (joinPath current_path) (Value.array elems, file_idx),
           childRes)
    | .value subvalue => do
      let converted ← fromTomlValue subvalue
      .ok (includes,
           alInsert values (joinPath current_path) (converted, file_idx),
           TraversalResult.full)
    | .none =>
      .ok (includes,
           alInsert values (joinPath current_path) (Value.null, file_idx),
           TraversalResult.full)
termination_by ((MAX_TOML_DEPTH + 2) - depth, 2, 0)

/-- `table_to_value_map_recursive`: process a table's entries in order.  The
source checks the depth guard once on entry and then loops; the model recurses
entry-by-entry and re-checks the guard, which is observationally identical
because `depth` does not change across one table's entries. -/
def table_to_value_map_recursive (entries : List (String × TomlEditItem))
    (current_path : List String) (file_idx : Nat) (includes : List String)
    (values : ConfigValues) (depth : Nat) :
    Except ArcellaUtilsError (List String × ConfigValues × TraversalResult) :=
  if _h : depth > MAX_TOML_DEPTH then
    .ok (includes, values, .pruned)
  else
    match entries with
    | [] => .ok (includes, values, .full)
    | (key, item) :: rest =>
      if key = INCLUDES_KEY then
        table_to_value_map_recursive rest current_path file_idx
          (includes ++ includesFrom item) values depth
      else do
        let (inc', vals', childRes) ←
          collect_paths_recursive item (current_path ++ [key]) file_idx
            includes values (depth + 1)
        let (inc'', vals'', restRes) ←
          table_to_value_map_recursive rest current_path file_idx inc' vals' depth
        .ok (inc'', vals'', childRes.combine restRes)
termination_by ((MAX_TOML_DEPTH + 2) - depth, 1, entries.length)

/-- `convert_array_of_tables_to_value`: each table of the array is processed
independently with an empty path prefix and fresh temporary state; the
collected values become one element `Map` (provenance dropped inside), and the
collected includes are appended to the caller's list in element order. -/
def convert_array_of_tables_to_value
    (arr : List (List (String × TomlEditItem))) (depth : Nat) (file_idx : Nat)
    (includes : List String) :
    Except ArcellaUtilsError (List String × List Value × TraversalResult) :=
  if _h : depth > MAX_TOML_DEPTH then
    .ok (includes, [], .pruned)
  else
    match arr with
    | [] => .ok (includes, [], .full)
    | t :: rest => do
      let (tinc, tvals, childRes) ←
        table_to_value_map_recursive t [] file_idx [] [] (depth + 1)
      let (inc', elems, restRes) ←
        convert_array_of_tables_to_value rest depth file_idx (includes ++ tinc)
      .ok (inc',
           Value.map (tvals.map (fun e => (e.1, e.2.1))) :: elems,
           childRes.combine restRes)
termination_by ((MAX_TOML_DEPTH + 2) - depth, 1, arr.length)

end

/-- `collect_paths`: traverse a parsed document root under a key prefix with
fresh accumulators.  (`parse_and_collect` is `toml_edit` text parsing — a spec
non-goal — followed by this; the model's documents are already parsed.) -/
def collect_paths (doc : TomlEditItem) (prefix_keys : List String)
    (file_idx : Nat) :
    Except ArcellaUtilsError (TomlFileData × TraversalResult) := do
  let (includes, values, result) ←
    collect_paths_recursive doc prefix_keys file_idx [] [] 0
  .ok (⟨includes, values⟩, result)

/-! ## Filesystem model and include resolution (`arcella-fs-utils/src/lib.rs`) -/

/-- The on-disk world of one resolution run: regular files with their parsed
TOML contents (reading and parsing a file are collapsed, text parsing being
the black-box `toml_edit` parser), and directories with their entries in raw
filesystem enumeration order. -/
structure FileSystem where
  files : List (String × TomlEditItem)
  dirs : List (String × List String)

/-- `Path::is_file` under this filesystem. -/
def FileSystem.isFile (fs : FileSystem) (p : String) : Bool :=
  (alGet fs.files p).isSome

/-- `Path::is_dir` under this filesystem. -/
def FileSystem.isDir (fs : FileSystem) (p : String) : Bool :=
  (alGet fs.dirs p).isSome

/-- `is_valid_toml_file_path`: has an extension, the extension is `toml`
(ASCII case-insensitive), and the lowercased file name does not end in
`.template.toml`. -/
def is_valid_toml_file_path (p : String) : Bool :=
  match pathExtension p with
  | Option.none => false
  | some ext =>
    if !eqIgnoreAsciiCase ext "toml" then false
    else !strEndsWith ⟨(pathFileName p).data.map charLower⟩ TEMPLATE_TOML_SUFFIX

/-- `resolve_include_paths`: resolve each pattern against the base directory
(absolute patterns kept as-is) and deduplicate.  The source collects into a
`HashSet`, whose iteration order is unspecified; the model retains first-seen
order, which is immaterial because every consumer deduplicates and sorts its
final list.  (The source wraps the result in an always-`Ok` `Result`.) -/
def resolve_include_paths (includes : List String) (parent_dir : String) :
    List String :=
  dedupKeepFirst (includes.map (fun pat => pathJoin parent_dir pat))

/-- The case-insensitive file-name sort key order of
`sort_by_key(|p| p.file_name().to_string_lossy().to_lowercase())`. -/
def lowerNameLe (p q : String) : Prop :=
  charListLe ((pathFileName p).data.map charLower)
    ((pathFileName q).data.map charLower) = true

instance : DecidableRel lowerNameLe := fun _ _ => instDecidableEqBool _ _

/-- Stable sort of paths by lowercased file name.  Rust's `sort_by_key` is a
stable sort under a total preorder, whose output is uniquely determined, so
the stable `insertionSort` computes the same list. -/
def sortByLowerFileName (l : List String) : List String :=
  List.insertionSort lowerNameLe l

/-- The path order of `Vec::<PathBuf>::sort()` as a relation. -/
def pathLeR (p q : String) : Prop := pathLe p q = true

instance : DecidableRel pathLeR := fun _ _ => instDecidableEqBool _ _

/-- Stable sort of paths in byte-lexicographic order (`Vec::sort()`; a total
order, so any sorting algorithm yields the same output). -/
def sortPaths (l : List String) : List String :=
  List.insertionSort pathLeR l

/-- `find_toml_files_in_dir`: error when the path does not exist, `none` when
it is not a directory, otherwise the directory's non-directory entries that
pass `is_valid_toml_file_path`, sorted case-insensitively by file name. -/
def find_toml_files_in_dir (fs : FileSystem) (dir_path : String) :
    Except ArcellaUtilsError (Option (List String)) :=
  if !(fs.isFile dir_path || fs.isDir dir_path) then
    .error (.ioWithPath dir_path)
  else if !fs.isDir dir_path then
    .ok Option.none
  else
    let entries := (alGet fs.dirs dir_path).getD []
    .ok (some (sortByLowerFileName
      (entries.filter (fun p => !fs.isDir p && is_valid_toml_file_path p))))

/-- The directory-scan half of `collect_includes`: scan each directory,
propagating errors, flattening results (`opt.unwrap_or_default()`). -/
def dirScans (fs : FileSystem) : List String → Except ArcellaUtilsError (List String)
  | [] => .ok []
  | d :: rest => do
    let r ← find_toml_files_in_dir fs d
    let rest' ← dirScans fs rest
    .ok (r.getD [] ++ rest')

/-- `collect_includes`: resolve patterns, classify into files and directories,
keep valid-TOML direct files, expand directories, deduplicate by path and sort
(`Vec::<PathBuf>::sort()`, i.e. byte-lexicographic order). -/
def collect_includes (fs : FileSystem) (includes : List String)
    (config_dir : String) : Except ArcellaUtilsError (List String) := do
  let all_paths := resolve_include_paths includes config_dir
  let include_files := all_paths.filter (fun p => fs.isFile p)
  let include_dirs := all_paths.filter (fun p => !fs.isFile p && fs.isDir p)
  let collected_files := include_files.filter is_valid_toml_file_path
  let dir_results ← dirScans fs include_dirs
  .ok (sortPaths (dedupKeepFirst (collected_files ++ dir_results)))

/-- Per-path loop of `collect_toml_includes` (see there). -/
def collectTomlAux (fs : FileSystem) :
    List String → List String → List ConfigLoadWarning →
    Except ArcellaUtilsError (List String × List ConfigLoadWarning)
  | [], acc, w => .ok (acc, w)
  | p :: rest, acc, w =>
    if fs.isFile p then
      if is_valid_toml_file_path p then collectTomlAux fs rest (acc ++ [p]) w
      else collectTomlAux fs rest acc (w ++ [ConfigLoadWarning.skippedInvalidFile p])
    else if fs.isDir p then do
      let r ← find_toml_files_in_dir fs p
      collectTomlAux fs rest (acc ++ r.getD []) w
    else
      collectTomlAux fs rest acc (w ++ [ConfigLoadWarning.skippedInvalidFile p])

/-- Modelled from the spec: `collect_toml_includes`, the include resolver the
recursive loader calls, is code of this repository whose source is not under
`src/` (only its call sites and the sibling `collect_includes` are).  Per spec
§4.2 and the loader module's documentation it resolves each pattern against
the config directory, collects direct valid-TOML file matches, expands
directories non-recursively, records a `SkippedInvalidFile` warning for
anything else (missing path, non-`.toml` file, `.template.toml` file), and
returns the deduplicated, sorted list together with the extended warnings. -/
def collect_toml_includes (fs : FileSystem) (includes : List String)
    (config_dir : String) (warnings : List ConfigLoadWarning) :
    Except ArcellaUtilsError (List String × List ConfigLoadWarning) := do
  let (collected, w) ←
    collectTomlAux fs (resolve_include_paths includes config_dir) [] warnings
  .ok (sortPaths (dedupKeepFirst collected), w)

/-! ## Recursive loader (`arcella-fs-utils/src/config_loader.rs`) -/

/-- `ConfigLoadParams` (spec: `LoadParams`).  The source names the first field
`prefix`, a reserved word in Lean (the spec calls it the key prefix);
`prefix_keys` is used instead. -/
structure ConfigLoadParams where
  prefix_keys : List String
  config_dir : String

/-- `ConfigLoadState` (spec: `LoadState`): the `IndexSet` of loaded files, the
`HashSet` cycle/dedup guard, and the accumulated warnings. -/
structure ConfigLoadState where
  config_files : List String
  visited_paths : List String
  warnings : List ConfigLoadWarning
deriving Repr

mutual

/-- `load_config_recursive`.  `fuel` is a termination device only: every
recursive call decrements it while incrementing `current_depth`, and the depth
guard stops recursion at depth `MAX_CONFIG_DEPTH + 1`, so from the entry point
(fuel `MAX_CONFIG_DEPTH + 3`, depth 0) the fuel-exhaustion fallback in
`loadIncludesAux` is unreachable and the model computes exactly what the
source does. -/
def load_config_recursive (fs : FileSystem) (params : ConfigLoadParams)
    (fuel : Nat) (state : ConfigLoadState) (config_file_path : String)
    (included_from : Option String) (current_depth : Nat) :
    Except ArcellaUtilsError (List TomlFileData × ConfigLoadState) :=
  if current_depth > MAX_CONFIG_DEPTH then
    .ok ([], { state with warnings := state.warnings ++
      [ConfigLoadWarning.maxDepthReached config_file_path] })
  else if config_file_path ∈ state.visited_paths then
    .ok ([], { state with warnings := state.warnings ++
      [ConfigLoadWarning.duplicateInclude config_file_path
        (included_from.getD config_file_path)] })
  else
    match alGet fs.files config_file_path with
    | Option.none => .error (.ioWithPath config_file_path)
    | some doc =>
      let st1 := { state with
        visited_paths := state.visited_paths ++ [config_file_path] }
      let fi := insertFull st1.config_files config_file_path
      let st2 := { st1 with config_files := fi.2 }
      load_config_recursive_from_content fs params fuel st2 doc fi.1
        config_file_path current_depth
termination_by (fuel, 2, 0)

/-- `load_config_recursive_from_content`: traverse the (already parsed)
content, record `Pruned` and null-value warnings, resolve the includes, and
recurse into each resolved path at `current_depth + 1`. -/
def load_config_recursive_from_content (fs : FileSystem)
    (params : ConfigLoadParams) (fuel : Nat) (state : ConfigLoadState)
    (doc : TomlEditItem) (file_idx : Nat) (config_file_path : String)
    (current_depth : Nat) :
    Except ArcellaUtilsError (List TomlFileData × ConfigLoadState) :=
  match collect_paths doc params.prefix_keys file_idx with
  | .error e => .error e
  | .ok (config, result) =>
    let st1 := if result = TraversalResult.pruned then
        { state with warnings := state.warnings ++
          [ConfigLoadWarning.pruned config_file_path] }
      else state
    let nullWarns := (config.values.filter (fun e => e.2.1.isNull)).map
      (fun e => ConfigLoadWarning.nullValueDetected e.1 config_file_path)
    let st2 := { st1 with warnings := st1.warnings ++ nullWarns }
    match collect_toml_includes fs config.includes params.config_dir st2.warnings with
    | .error e => .error e
    | .ok (include_paths, w) =>
      let st3 := { st2 with warnings := w }
      match loadIncludesAux fs params fuel include_paths st3 config_file_path
        current_depth with
      | .error e => .error e
      | .ok (subs, st4) => .ok (config :: subs, st4)
termination_by (fuel, 1, 0)

/-- The `for include_path in include_paths` recursion loop of
`load_config_recursive_from_content`. -/
def loadIncludesAux (fs : FileSystem) (params : ConfigLoadParams) (fuel : Nat)
    (paths : List String) (state : ConfigLoadState) (parent : String)
    (current_depth : Nat) :
    Except ArcellaUtilsError (List TomlFileData × ConfigLoadState) :=
  match fuel, paths with
  | _, [] => .ok ([], state)
  | 0, _ :: _ => .ok ([], state)
  | f + 1, p :: rest =>
    match load_config_recursive fs params f state p (some parent)
      (current_depth + 1) with
    | .error e => .error e
    | .ok (cfgs, st') =>
      match loadIncludesAux fs params (f + 1) rest st' parent current_depth with
      | .error e => .error e
      | .ok (more, st'') => .ok (cfgs ++ more, st'')
termination_by (fuel, 0, paths.length)

end

/-- Fuel budget of the public entry point; any value above
`MAX_CONFIG_DEPTH + 2` is equivalent (the depth guard, not the fuel, stops the
recursion). -/
def LOAD_FUEL : Nat := MAX_CONFIG_DEPTH + 3

/-- `load_config_recursive_from_file`: the public entry point, root file at
depth 0. -/
def load_config_recursive_from_file (fs : FileSystem)
    (params : ConfigLoadParams) (state : ConfigLoadState)
    (config_file_path : String) :
    Except ArcellaUtilsError (List TomlFileData × ConfigLoadState) :=
  load_config_recursive fs params LOAD_FUEL state config_file_path Option.none 0

/-! ## Concrete scenarios used by closed theorems -/

/-- The `config_files` index table of the three-layer merge scenarios:
default schema at index 0, primary file at index 1, one included file at
index 2. -/
def threeFiles : List String :=
  ["default_config.toml", "config/arcella.toml", "config/level_1.toml"]

/-- One chain file: a table whose sole entry is an `includes` directive. -/
def incDoc (next : String) : TomlEditItem :=
  .table [("includes", .value (.str next))]

/-- Near-cycle scenario: six files, each including the next, the sixth
including the first again (a cyclic reference that is first repeated at
inclusion depth 6). -/
def fsCycle6 : FileSystem :=
  ⟨[("/c/f0.toml", incDoc "f1.toml"), ("/c/f1.toml", incDoc "f2.toml"),
    ("/c/f2.toml", incDoc "f3.toml"), ("/c/f3.toml", incDoc "f4.toml"),
    ("/c/f4.toml", incDoc "f5.toml"), ("/c/f5.toml", incDoc "f0.toml")], []⟩

/-- Pure linear chain of six distinct files (the sixth has no includes). -/
def fsChain6 : FileSystem :=
  ⟨[("/c/f0.toml", incDoc "f1.toml"), ("/c/f1.toml", incDoc "f2.toml"),
    ("/c/f2.toml", incDoc "f3.toml"), ("/c/f3.toml", incDoc "f4.toml"),
    ("/c/f4.toml", incDoc "f5.toml"), ("/c/f5.toml", .table [])], []⟩

/-- Loader parameters of the chain scenarios. -/
def chainParams : ConfigLoadParams := ⟨["arcella"], "/c"⟩

/-- Filesystem with one directory holding `B.toml` and `a.toml`. -/
def fsMixedCase : FileSystem :=
  ⟨[("/d/B.toml", .table []), ("/d/a.toml", .table [])],
   [("/d", ["/d/B.toml", "/d/a.toml"])]⟩

/-- Case-insensitive path order (the order the spec asserts for the final
include list). -/
def ciPathLe (p q : String) : Bool :=
  charListLe (p.data.map charLower) (q.data.map charLower)

/-! ## C2 — redef permission transitivity -/

/-- C2: with default `{arcella.log.level: "info"}`, a primary file containing
only `arcella.log.level#redef = "warn"` and one included file containing
`arcella.log.level = "debug"` without `#redef`, the merge yields
`"debug"` attributed to the included file's index (2) and produces no
warnings at all. -/
theorem merge_redef_permission_transitivity :
    merge_config ⟨[], [("arcella.log.level", Value.str "info", 0)]⟩
      [⟨[], [("arcella.log.level#redef", Value.str "warn", 1)]⟩,
       ⟨[], [("arcella.log.level", Value.str "debug", 2)]⟩]
      threeFiles "config" []
    = some ([("arcella.log.level", Value.str "debug", 2)], []) := by rfl

/-! ## C3 — a `#redef` key under a vacant working-map entry does assign -/

/-- C3 counterexample: when no layer assigns the un-suffixed key, processing
the `#redef`-suffixed entry inserts that entry's own value with no recorded
grantor (refuting "records that file's index as the redef grantor and does
not change the stored value"), and the value then reaches the final map
displacing the default (refuting "contributes no value to the final map"):
with default `{arcella.log.level: "info"}` and a primary file containing only
`arcella.log.level#redef = "warn"`, reconciliation stores
`{value := "warn", redef_grantor := none}` and the merge result is `"warn"`
attributed to the primary file, not the default `"info"`. -/
theorem redef_vacant_assigns_value_counterexample :
    reconcile [⟨[], [("arcella.log.level#redef", Value.str "warn", 1)]⟩] []
      = ([("arcella.log.level",
            ⟨Value.str "warn", 0, 1, Option.none⟩)], [])
    ∧ merge_config ⟨[], [("arcella.log.level", Value.str "info", 0)]⟩
        [⟨[], [("arcella.log.level#redef", Value.str "warn", 1)]⟩]
        ["default_config.toml", "config/arcella.toml"] "config" []
      = some ([("arcella.log.level", Value.str "warn", 1)], []) := by
  exact ⟨rfl, rfl⟩

/-! ## C4 — the newable test has no trailing dot -/

/-- C4 counterexample: the source gates new keys with
`starts_with("arcella.custom")` — no trailing dot — so the brand-new key
`arcella.customized.option`, which does not lie under the `custom.` namespace,
is nevertheless inserted into the final map with no warning, refuting the
claimed "if and only if it starts with `custom.` or `modules.`". -/
theorem newable_namespace_gating_counterexample :
    isNewable "arcella.customized.option" = true
    ∧ merge_config ⟨[], [("arcella.log.level", Value.str "info", 0)]⟩
        [⟨[], []⟩, ⟨[], [("arcella.customized.option", Value.str "v", 2)]⟩]
        threeFiles "config" []
      = some ([("arcella.log.level", Value.str "info", 0),
               ("arcella.customized.option", Value.str "v", 2)], []) := by
  exact ⟨rfl, rfl⟩

/-! ## C9 — the merge engine panics when the index table lacks its anchors -/

/-- C9 counterexample: `merge_config` unwraps the index of the primary file's
path and of the default filename in `config_files`; on an input whose
known-files table is empty both unwraps fail (a Rust panic, `none` in the
model), so the engine does not return a complete map for *every* input. -/
theorem merge_config_panics_without_main_index_counterexample :
    merge_config ⟨[], []⟩ [] [] "config" [] = Option.none := by rfl

/-! ## C7 — the final include list is sorted case-sensitively -/

/-- C7 counterexample: for a directory holding `B.toml` and `a.toml` the
resolver returns `[/d/B.toml, /d/a.toml]` — byte-lexicographic order — which
is not sorted case-insensitively (case-insensitively `a` precedes `B`),
refuting the claimed final case-insensitive sort. -/
theorem collect_includes_case_sensitive_sort_counterexample :
    collect_includes fsMixedCase ["/d"] "/c"
        = .ok ["/d/B.toml", "/d/a.toml"]
    ∧ ciPathLe "/d/B.toml" "/d/a.toml" = false := by
  exact ⟨rfl, rfl⟩

/-! ## C5 — a repeat reference beyond the depth limit is not a DuplicateInclude -/

/-- C5 counterexample: in the near-cycle run the sixth file re-references the
root, a path already in `known_files`; because the depth check precedes the
dedup check, this subsequent reference at depth 6 emits `MaxDepthReached`
and the run's complete warning list contains no `DuplicateInclude` at all,
refuting "every subsequent reference … emits a DuplicateInclude warning". -/
theorem duplicate_reference_beyond_depth_counterexample :
    (load_config_recursive_from_file fsCycle6 chainParams ⟨[], [], []⟩
        "/c/f0.toml").map (fun r => (r.1.length, r.2.warnings))
      = .ok (6, [ConfigLoadWarning.maxDepthReached "/c/f0.toml"]) := by
  simp [load_config_recursive_from_file, load_config_recursive,
    load_config_recursive_from_content, loadIncludesAux, LOAD_FUEL,
    MAX_CONFIG_DEPTH, fsCycle6, chainParams, incDoc,
    collect_paths, collect_paths_recursive, table_to_value_map_recursive,
    convert_array_of_tables_to_value, MAX_TOML_DEPTH, fromTomlValue,
    includesFrom, TomlEditValue.asStr, joinPath, alGet, alInsert, insertFull,
    indexOfPath, collect_toml_includes, collectTomlAux, resolve_include_paths,
    dedupKeepFirst, pathJoin, pathIsAbsolute, FileSystem.isFile,
    FileSystem.isDir, find_toml_files_in_dir, dirScans, sortPaths,
    sortByLowerFileName, pathLeR, lowerNameLe, pathLe, charListLe,
    is_valid_toml_file_path, pathExtension, pathFileName, eqIgnoreAsciiCase,
    charLower, strEndsWith, strStartsWith, TEMPLATE_TOML_SUFFIX, INCLUDES_KEY,
    Value.isNull, TraversalResult.combine, List.insertionSort,
    List.orderedInsert, Except.bind, bind, Except.pure, pure, Except.map,
    List.isSuffixOf, List.isPrefixOf, List.reverse, List.reverseAux,
    List.filter, List.filterMap, Option.getD, Option.isSome, Option.toList]

/-! ## C6 — a chain of six files loads fully with no warning -/

/-- C6 counterexample: a linear chain of N = 6 distinct files has N greater
than `MAX_CONFIG_DEPTH` (5), and the claim therefore predicts a
`MaxDepthReached` warning for a first excluded file; but the root is at depth
0, so all six files load (depths 0–5) and the run produces no warning at
all — the claim's boundary is off by one (the code excludes files only from
the seventh file of a chain onward). -/
theorem chain_of_six_files_no_warning_counterexample :
    (load_config_recursive_from_file fsChain6 chainParams ⟨[], [], []⟩
        "/c/f0.toml").map (fun r => (r.1.length, r.2.warnings))
      = .ok (6, []) := by
  simp [load_config_recursive_from_file, load_config_recursive,
    load_config_recursive_from_content, loadIncludesAux, LOAD_FUEL,
    MAX_CONFIG_DEPTH, fsChain6, chainParams, incDoc,
    collect_paths, collect_paths_recursive, table_to_value_map_recursive,
    convert_array_of_tables_to_value, MAX_TOML_DEPTH, fromTomlValue,
    includesFrom, TomlEditValue.asStr, joinPath, alGet, alInsert, insertFull,
    indexOfPath, collect_toml_includes, collectTomlAux, resolve_include_paths,
    dedupKeepFirst, pathJoin, pathIsAbsolute, FileSystem.isFile,
    FileSystem.isDir, find_toml_files_in_dir, dirScans, sortPaths,
    sortByLowerFileName, pathLeR, lowerNameLe, pathLe, charListLe,
    is_valid_toml_file_path, pathExtension, pathFileName, eqIgnoreAsciiCase,
    charLower, strEndsWith, strStartsWith, TEMPLATE_TOML_SUFFIX, INCLUDES_KEY,
    Value.isNull, TraversalResult.combine, List.insertionSort,
    List.orderedInsert, Except.bind, bind, Except.pure, pure, Except.map,
    List.isSuffixOf, List.isPrefixOf, List.reverse, List.reverseAux,
    List.filter, List.filterMap, Option.getD, Option.isSome, Option.toList]

/-! ## Association-list lemmas -/

theorem alGet_alInsert_self {α : Type} (m : List (String × α)) (k : String) (v : α) :
    alGet (alInsert m k v) k = some v := by
  induction m with
  | nil => simp [alInsert, alGet]
  | cons e rest ih =>
    by_cases h : e.1 = k
    · simp [alInsert, alGet, h]
    · simp [alInsert, alGet, h, ih]

theorem alGet_alInsert_ne {α : Type} (m : List (String × α)) {k' k : String}
    (v : α) (h : k' ≠ k) : alGet (alInsert m k' v) k = alGet m k := by
  induction m with
  | nil => simp [alInsert, alGet, h]
  | cons e rest ih =>
    by_cases he : e.1 = k'
    · simp [alInsert, alGet, he, h]
    · simp only [alInsert, alGet, if_neg he]
      by_cases hk : e.1 = k <;> simp [alGet, hk, ih]

theorem alGet_append {α : Type} (m₁ m₂ : List (String × α)) (k : String) :
    alGet (m₁ ++ m₂) k = match alGet m₁ k with
      | some v => some v
      | Option.none => alGet m₂ k := by
  induction m₁ with
  | nil => simp [alGet]
  | cons e rest ih =>
    by_cases h : e.1 = k <;> simp [alGet, h, ih]

theorem alGet_eq_none_iff {α : Type} (m : List (String × α)) (k : String) :
    alGet m k = Option.none ↔ k ∉ alKeys m := by
  induction m with
  | nil => simp [alGet, alKeys]
  | cons e rest ih =>
    obtain ⟨k', v⟩ := e
    by_cases h : k' = k
    · subst h; simp [alGet, alKeys]
    · simp only [alGet, if_neg h, alKeys, List.map_cons, List.mem_cons, ih]
      constructor
      · rintro hnk (h1 | h2)
        · exact h h1.symm
        · exact hnk h2
      · intro hh
        exact fun h2 => hh (Or.inr h2)

theorem alGet_some_mem {α : Type} {m : List (String × α)} {k : String} {v : α}
    (h : alGet m k = some v) : (k, v) ∈ m := by
  induction m with
  | nil => simp [alGet] at h
  | cons e rest ih =>
    obtain ⟨k', w⟩ := e
    by_cases he : k' = k
    · simp only [alGet, if_pos he] at h
      subst he
      obtain rfl : w = v := by injection h
      exact List.mem_cons_self _ _
    · simp only [alGet, if_neg he] at h
      exact List.mem_cons_of_mem _ (ih h)

theorem alInsert_of_get_none {α : Type} {m : List (String × α)} {k : String}
    (v : α) (h : alGet m k = Option.none) : alInsert m k v = m ++ [(k, v)] := by
  induction m with
  | nil => simp [alInsert]
  | cons e rest ih =>
    by_cases he : e.1 = k
    · simp [alGet, he] at h
    · simp only [alGet, if_neg he] at h
      simp [alInsert, he, ih h]

theorem alKeys_alInsert_of_get_some {α : Type} {m : List (String × α)}
    {k : String} {w : α} (v : α) (h : alGet m k = some w) :
    alKeys (alInsert m k v) = alKeys m := by
  induction m with
  | nil => simp [alGet] at h
  | cons e rest ih =>
    obtain ⟨k', w'⟩ := e
    by_cases he : k' = k
    · subst he; simp [alInsert, alKeys]
    · simp only [alGet, if_neg he] at h
      simp only [alInsert, if_neg he, alKeys, List.map_cons, List.cons.injEq,
        true_and]
      simpa [alKeys] using ih h

theorem alKeys_nodup_alInsert {α : Type} {m : List (String × α)} {k : String}
    (v : α) (h : (alKeys m).Nodup) : (alKeys (alInsert m k v)).Nodup := by
  cases hg : alGet m k with
  | some w => rw [alKeys_alInsert_of_get_some v hg]; exact h
  | none =>
    rw [alInsert_of_get_none v hg]
    have hk : k ∉ alKeys m := (alGet_eq_none_iff m k).mp hg
    have hkeys : alKeys (m ++ [(k, v)]) = alKeys m ++ [k] := by simp [alKeys]
    rw [hkeys, List.nodup_append]
    refine ⟨h, List.nodup_singleton k, ?_⟩
    intro a ha hb
    rw [List.mem_singleton] at hb
    subst hb
    exact hk ha

theorem alGet_isSome_alInsert {α : Type} (m : List (String × α)) (k' k : String)
    (v : α) (h : (alGet m k).isSome) : (alGet (alInsert m k' v) k).isSome := by
  by_cases hk : k' = k
  · subst hk; simp [alGet_alInsert_self]
  · rw [alGet_alInsert_ne m v hk]; exact h

/-- Fold preservation helper: a predicate preserved by each step is preserved
by the whole fold. -/
theorem foldl_preserves {α β : Type} (P : α → Prop) (f : α → β → α)
    (h : ∀ a b, P a → P (f a b)) :
    ∀ (l : List β) (a : α), P a → P (l.foldl f a) := by
  intro l
  induction l with
  | nil => intro a ha; exact ha
  | cons b rest ih => intro a ha; exact ih (f a b) (h a b ha)

/-! ## Merge-engine lemmas -/

theorem applyStep_occupied_accept {mi : Nat} {acc : ConfigValues × List ConfigLoadWarning}
    {k : String} {rv : ResolvedValue} {d : Value × Nat}
    (hd : alGet acc.1 k = some d)
    (hc : rv.source_file = mi ∨ rv.redef_allowed_by = some mi) :
    applyStep mi acc (k, rv) = (alInsert acc.1 k (rv.value, rv.source_file), acc.2) := by
  rcases hc with hc | hc
  · simp [applyStep, hd, hc]
  · by_cases h1 : rv.source_file = mi <;> simp [applyStep, hd, h1, hc]

theorem applyStep_occupied_reject {mi : Nat} {acc : ConfigValues × List ConfigLoadWarning}
    {k : String} {rv : ResolvedValue} {d : Value × Nat}
    (hd : alGet acc.1 k = some d)
    (h1 : rv.source_file ≠ mi) (h2 : rv.redef_allowed_by ≠ some mi) :
    applyStep mi acc (k, rv) = (acc.1, acc.2 ++
      [ConfigLoadWarning.valueError k
        ("Value from file " ++ Nat.repr rv.source_file ++
         " ignored due to #redef missing in arcella.toml")
        ("layer_" ++ Nat.repr rv.source_layer ++ ".toml")]) := by
  simp [applyStep, hd, h1, h2]

theorem applyStep_vacant_newable {mi : Nat} {acc : ConfigValues × List ConfigLoadWarning}
    {k : String} {rv : ResolvedValue}
    (hn : alGet acc.1 k = Option.none) (h : isNewable k = true) :
    applyStep mi acc (k, rv) = (acc.1 ++ [(k, rv.value, rv.source_file)], acc.2) := by
  simp [applyStep, hn, h]

theorem applyStep_vacant_reject {mi : Nat} {acc : ConfigValues × List ConfigLoadWarning}
    {k : String} {rv : ResolvedValue}
    (hn : alGet acc.1 k = Option.none) (h : isNewable k = false) :
    applyStep mi acc (k, rv) = (acc.1, acc.2 ++
      [ConfigLoadWarning.valueError k
        ("Value from layer " ++ Nat.repr rv.source_layer ++
         " ignored due to missing in default config")
        ("layer_" ++ Nat.repr rv.source_layer ++ ".toml")]) := by
  simp [applyStep, hn, h]

/-- A pass-2 step for an entry with another key leaves the lookup at `k`
unchanged. -/
theorem applyStep_get_ne {mi : Nat} (acc : ConfigValues × List ConfigLoadWarning)
    (e : String × ResolvedValue) {k : String} (h : e.1 ≠ k) :
    alGet (applyStep mi acc e).1 k = alGet acc.1 k := by
  obtain ⟨k', rv⟩ := e
  simp only at h
  unfold applyStep
  cases hg : alGet acc.1 k' with
  | some d =>
    by_cases h1 : rv.source_file = mi
    · simpa [hg, h1] using alGet_alInsert_ne acc.1 (rv.value, rv.source_file) h
    · by_cases h2 : rv.redef_allowed_by = some mi <;>
        simp [hg, h1, h2, alGet_alInsert_ne acc.1 (rv.value, rv.source_file) h]
  | none =>
    by_cases hn : isNewable k'
    · simp only [hg, hn, if_true]
      rw [alGet_append]
      cases hk : alGet acc.1 k <;> simp [alGet, h]
    · simp [hg, hn]

/-- Folding pass 2 over entries none of which has key `k` leaves the lookup at
`k` unchanged. -/
theorem foldl_applyStep_get_not_mem {mi : Nat}
    (l : List (String × ResolvedValue)) (acc : ConfigValues × List ConfigLoadWarning)
    {k : String} (h : k ∉ l.map Prod.fst) :
    alGet (l.foldl (applyStep mi) acc).1 k = alGet acc.1 k := by
  induction l generalizing acc with
  | nil => rfl
  | cons e rest ih =>
    simp only [List.map_cons, List.mem_cons] at h
    push_neg at h
    rw [List.foldl_cons, ih _ h.2, applyStep_get_ne acc e (fun he => h.1 he.symm)]

/-- Every pass-2 step either keeps the warning list or appends one
`ValueError` keyed by the entry's own key. -/
theorem applyStep_warnings (mi : Nat) (acc : ConfigValues × List ConfigLoadWarning)
    (e : String × ResolvedValue) :
    ∃ Δ, (applyStep mi acc e).2 = acc.2 ++ Δ ∧
      ∀ w ∈ Δ, ∃ msg f0, w = ConfigLoadWarning.valueError e.1 msg f0 := by
  obtain ⟨k', rv⟩ := e
  unfold applyStep
  cases hg : alGet acc.1 k' with
  | some d =>
    by_cases h1 : rv.source_file = mi
    · exact ⟨[], by simp [hg, h1], by simp⟩
    · by_cases h2 : rv.redef_allowed_by = some mi
      · exact ⟨[], by simp [hg, h1, h2], by simp⟩
      · refine ⟨[ConfigLoadWarning.valueError k'
            ("Value from file " ++ Nat.repr rv.source_file ++
             " ignored due to #redef missing in arcella.toml")
            ("layer_" ++ Nat.repr rv.source_layer ++ ".toml")],
          by simp [hg, h1, h2], ?_⟩
        intro w hw
        rw [List.mem_singleton] at hw
        exact ⟨_, _, hw⟩
  | none =>
    by_cases hn : isNewable k'
    · exact ⟨[], by simp [hg, hn], by simp⟩
    · refine ⟨[ConfigLoadWarning.valueError k'
          ("Value from layer " ++ Nat.repr rv.source_layer ++
           " ignored due to missing in default config")
          ("layer_" ++ Nat.repr rv.source_layer ++ ".toml")],
        by simp [hg, hn], ?_⟩
      intro w hw
      rw [List.mem_singleton] at hw
      exact ⟨_, _, hw⟩

/-- Generic fold lemma: if each step only appends warnings satisfying a
per-element shape, the fold appends warnings traceable to elements. -/
theorem foldl_warnings_shape {α β : Type} (f : α → β → α)
    (g : α → List ConfigLoadWarning) (Pw : β → ConfigLoadWarning → Prop)
    (h : ∀ a b, ∃ Δ, g (f a b) = g a ++ Δ ∧ ∀ w ∈ Δ, Pw b w) :
    ∀ (l : List β) (a : α), ∃ Δ, g (l.foldl f a) = g a ++ Δ ∧
      ∀ w ∈ Δ, ∃ b ∈ l, Pw b w := by
  intro l
  induction l with
  | nil => exact fun a => ⟨[], by simp, by simp⟩
  | cons b rest ih =>
    intro a
    obtain ⟨Δ₁, hΔ₁, hP₁⟩ := h a b
    obtain ⟨Δ₂, hΔ₂, hP₂⟩ := ih (f a b)
    refine ⟨Δ₁ ++ Δ₂, ?_, ?_⟩
    · rw [List.foldl_cons, hΔ₂, hΔ₁, List.append_assoc]
    · intro w hw
      rcases List.mem_append.mp hw with hw | hw
      · exact ⟨b, List.mem_cons_self _ _, hP₁ w hw⟩
      · obtain ⟨b', hb', hPb'⟩ := hP₂ w hw
        exact ⟨b', List.mem_cons_of_mem _ hb', hPb'⟩

/-- Pass 2 only appends `ValueError` warnings keyed by preliminary keys. -/
theorem foldl_applyStep_warnings (mi : Nat) (l : List (String × ResolvedValue))
    (acc : ConfigValues × List ConfigLoadWarning) :
    ∃ Δ, (l.foldl (applyStep mi) acc).2 = acc.2 ++ Δ ∧
      ∀ w ∈ Δ, ∃ k₀ msg f0, w = ConfigLoadWarning.valueError k₀ msg f0 ∧
        k₀ ∈ l.map Prod.fst := by
  obtain ⟨Δ, hΔ, hP⟩ := foldl_warnings_shape (applyStep mi) Prod.snd
    (fun b w => ∃ msg f0, w = ConfigLoadWarning.valueError b.1 msg f0)
    (applyStep_warnings mi) l acc
  refine ⟨Δ, hΔ, ?_⟩
  intro w hw
  obtain ⟨b, hb, msg, f0, hw'⟩ := hP w hw
  exact ⟨b.1, msg, f0, hw', List.mem_map_of_mem Prod.fst hb⟩

/-- Pass 2 never removes a key from the working final map. -/
theorem foldl_applyStep_isSome (mi : Nat) (l : List (String × ResolvedValue))
    (acc : ConfigValues × List ConfigLoadWarning) (k : String)
    (h : (alGet acc.1 k).isSome) :
    (alGet (l.foldl (applyStep mi) acc).1 k).isSome := by
  refine foldl_preserves (fun a => (alGet a.1 k).isSome) (applyStep mi) ?_ l acc h
  intro a b ha
  obtain ⟨k', rv⟩ := b
  unfold applyStep
  cases hg : alGet a.1 k' with
  | some d =>
    by_cases h1 : rv.source_file = mi
    · simpa [hg, h1] using alGet_isSome_alInsert a.1 k' k (rv.value, rv.source_file) ha
    · by_cases h2 : rv.redef_allowed_by = some mi <;>
        simp [hg, h1, h2, ha, alGet_isSome_alInsert a.1 k' k (rv.value, rv.source_file) ha]
  | none =>
    by_cases hn : isNewable k'
    · simp only [hg, hn, if_true]
      rw [alGet_append]
      cases hk : alGet a.1 k
      · rw [hk] at ha; simp at ha
      · simp
    · simp [hg, hn, ha]

theorem nodup_split_not_mem {α : Type} {l₁ l₂ : List (String × α)} {k : String}
    {v : α} (h : ((l₁ ++ (k, v) :: l₂).map Prod.fst).Nodup) :
    k ∉ l₁.map Prod.fst ∧ k ∉ l₂.map Prod.fst := by
  rw [List.map_append, List.map_cons, List.nodup_append] at h
  obtain ⟨h1, h2, hdisj⟩ := h
  rw [List.nodup_cons] at h2
  exact ⟨fun hk => hdisj hk (List.mem_cons_self _ _), h2.1⟩

/-- Seeding with keys excluding `k` leaves the lookup at `k` unchanged. -/
theorem seed_fold_get_not_mem (di : Nat) (vals : ConfigValues)
    (acc : ConfigValues) {k : String} (h : k ∉ vals.map Prod.fst) :
    alGet (vals.foldl (fun m e => alInsert m e.1 (e.2.1, di)) acc) k
      = alGet acc k := by
  induction vals generalizing acc with
  | nil => rfl
  | cons e rest ih =>
    simp only [List.map_cons, List.mem_cons] at h
    push_neg at h
    rw [List.foldl_cons, ih _ h.2,
      alGet_alInsert_ne acc (e.2.1, di) (fun he => h.1 he.symm)]

/-- A key absent from the default schema is absent from the seeded map. -/
theorem seedDefaults_get_none {dc : TomlFileData} (di : Nat) {k : String}
    (h : alGet dc.values k = Option.none) :
    alGet (seedDefaults dc di) k = Option.none := by
  have hk : k ∉ dc.values.map Prod.fst := (alGet_eq_none_iff dc.values k).mp h
  unfold seedDefaults
  rw [seed_fold_get_not_mem di dc.values [] hk]
  rfl

/-- A default-schema key is seeded with the default value, attributed to the
default schema's index. -/
theorem seedDefaults_get_mem {dc : TomlFileData} (di : Nat) {k : String}
    {dv : Value} {dfi : Nat} (hnd : (dc.values.map Prod.fst).Nodup)
    (h : alGet dc.values k = some (dv, dfi)) :
    alGet (seedDefaults dc di) k = some (dv, di) := by
  obtain ⟨l₁, l₂, hsplit⟩ := List.append_of_mem (alGet_some_mem h)
  unfold seedDefaults
  rw [hsplit] at hnd ⊢
  obtain ⟨h1, h2⟩ := nodup_split_not_mem hnd
  rw [List.foldl_append, List.foldl_cons, seed_fold_get_not_mem di l₂ _ h2]
  exact alGet_alInsert_self _ k (dv, di)

/-- Every default-schema key is present in the seeded map. -/
theorem seedDefaults_get_isSome {dc : TomlFileData} (di : Nat) {k : String}
    (h : k ∈ dc.values.map Prod.fst) :
    (alGet (seedDefaults dc di) k).isSome := by
  suffices hgen : ∀ (vals : ConfigValues) (acc : ConfigValues),
      k ∈ vals.map Prod.fst ∨ (alGet acc k).isSome →
      (alGet (vals.foldl (fun m e => alInsert m e.1 (e.2.1, di)) acc) k).isSome by
    exact hgen dc.values [] (Or.inl h)
  intro vals
  induction vals with
  | nil =>
    intro acc hacc
    rcases hacc with hacc | hacc
    · simp at hacc
    · exact hacc
  | cons e rest ih =>
    intro acc hacc
    rw [List.foldl_cons]
    by_cases he : e.1 = k
    · refine ih _ (Or.inr ?_)
      rw [he, alGet_alInsert_self]
      rfl
    · rcases hacc with hacc | hacc
      · simp only [List.map_cons, List.mem_cons] at hacc
        rcases hacc with hacc | hacc
        · exact absurd hacc.symm he
        · exact ih _ (Or.inl hacc)
      · exact ih _ (Or.inr (alGet_isSome_alInsert acc e.1 k (e.2.1, di) hacc))

/-- The reconciliation step preserves distinctness of working-map keys. -/
theorem mergeStep_keys_nodup (li : Nat) (acc : List (String × ResolvedValue) × List ConfigLoadWarning)
    (e : String × Value × Nat) (h : (alKeys acc.1).Nodup) :
    (alKeys (mergeStep li acc e).1).Nodup := by
  unfold mergeStep
  cases hg : alGet acc.1 (stripRedef e.1).1 with
  | some ev =>
    by_cases hr : (stripRedef e.1).2 <;>
      simpa [hg, hr] using alKeys_nodup_alInsert _ h
  | none =>
    simp only [hg]
    rw [← alInsert_of_get_none ⟨e.2.1, li, e.2.2, Option.none⟩ hg]
    exact alKeys_nodup_alInsert _ h

/-- The working map of the reconciliation pass has distinct keys. -/
theorem reconcile_keys_nodup (configs : List TomlFileData)
    (warnings : List ConfigLoadWarning) :
    (alKeys (reconcile configs warnings).1).Nodup := by
  unfold reconcile
  refine foldl_preserves
    (fun (acc : List (String × ResolvedValue) × List ConfigLoadWarning) =>
      (alKeys acc.1).Nodup) _ ?_ _ _ (by simp [alKeys])
  intro a b ha
  exact foldl_preserves
    (fun (acc : List (String × ResolvedValue) × List ConfigLoadWarning) =>
      (alKeys acc.1).Nodup) _
    (fun a' b' ha' => mergeStep_keys_nodup _ _ _ ha') _ _ ha

/-- The reconciliation step appends only `ValueError` warnings. -/
theorem mergeStep_warnings (li : Nat) (acc : List (String × ResolvedValue) × List ConfigLoadWarning)
    (e : String × Value × Nat) :
    ∃ Δ, (mergeStep li acc e).2 = acc.2 ++ Δ ∧
      ∀ w ∈ Δ, ∃ k₀ msg f0, w = ConfigLoadWarning.valueError k₀ msg f0 := by
  unfold mergeStep
  cases hg : alGet acc.1 (stripRedef e.1).1 with
  | some ev =>
    by_cases hr : (stripRedef e.1).2
    · exact ⟨[], by simp [hg, hr], by simp⟩
    · refine ⟨[ConfigLoadWarning.valueError (stripRedef e.1).1
          ("Value from file " ++ Nat.repr ev.source_file ++
           " ignored due to no #redef flag in layer " ++ Nat.repr li)
          ("layer_" ++ Nat.repr li ++ ".toml")], by simp [hg, hr], ?_⟩
      intro w hw
      rw [List.mem_singleton] at hw
      exact ⟨_, _, _, hw⟩
  | none => exact ⟨[], by simp [hg], by simp⟩

/-- The reconciliation pass only appends `ValueError` warnings. -/
theorem reconcile_warnings (configs : List TomlFileData)
    (warnings : List ConfigLoadWarning) :
    ∃ Δ, (reconcile configs warnings).2 = warnings ++ Δ ∧
      ∀ w ∈ Δ, ∃ k₀ msg f0, w = ConfigLoadWarning.valueError k₀ msg f0 := by
  unfold reconcile
  obtain ⟨Δ, hΔ, hP⟩ := foldl_warnings_shape
    (fun acc p => mergeLayer p.1 p.2 acc) Prod.snd
    (fun _ w => ∃ k₀ msg f0, w = ConfigLoadWarning.valueError k₀ msg f0)
    (fun a b => by
      unfold mergeLayer
      obtain ⟨Δ', hΔ', hP'⟩ := foldl_warnings_shape (mergeStep b.1) Prod.snd
        (fun _ w => ∃ k₀ msg f0, w = ConfigLoadWarning.valueError k₀ msg f0)
        (fun a' b' => by
          obtain ⟨Δ'', hΔ'', hP''⟩ := mergeStep_warnings b.1 a' b'
          exact ⟨Δ'', hΔ'', fun w hw => hP'' w hw⟩) b.2.values a
      refine ⟨Δ', hΔ', ?_⟩
      intro w hw
      obtain ⟨_, _, hP''⟩ := hP' w hw
      exact hP'')
    (configs.enum.reverse) ([], warnings)
  refine ⟨Δ, hΔ, ?_⟩
  intro w hw
  obtain ⟨_, _, hP'⟩ := hP w hw
  exact hP'

/-- `merge_config` in terms of its two passes, when both index lookups
succeed. -/
theorem merge_config_eq {dc : TomlFileData} {configs : List TomlFileData}
    {config_files : List String} {config_dir : String}
    {warnings : List ConfigLoadWarning} {mi di : Nat}
    (hm : indexOfPath config_files (pathJoin config_dir MAIN_CONFIG_FILENAME) = some mi)
    (hd : indexOfPath config_files DEFAULT_CONFIG_FILENAME = some di) :
    merge_config dc configs config_files config_dir warnings
      = some ((reconcile configs warnings).1.foldl (applyStep mi)
          (seedDefaults dc di, (reconcile configs warnings).2)) := by
  unfold merge_config
  rw [hm, hd]

/-- Central pass-2 lemma: for a preliminary entry `(k, rv)` in a working map
with distinct keys, the final lookup at `k` and the pass-2 warnings keyed `k`
are exactly those of `k`'s own application step, the step's branch being
decided by the lookup in the initial accumulator (the seeded defaults). -/
theorem foldl_applyStep_of_mem (mi : Nat) {l : List (String × ResolvedValue)}
    {k : String} {rv : ResolvedValue}
    (acc : ConfigValues × List ConfigLoadWarning)
    (hnd : (l.map Prod.fst).Nodup) (hmem : (k, rv) ∈ l) :
    ∃ Δ, (l.foldl (applyStep mi) acc).2 = acc.2 ++ Δ ∧
      (∀ d, alGet acc.1 k = some d →
        ((rv.source_file = mi ∨ rv.redef_allowed_by = some mi) →
           alGet (l.foldl (applyStep mi) acc).1 k = some (rv.value, rv.source_file)
           ∧ ∀ msg f0, ConfigLoadWarning.valueError k msg f0 ∉ Δ)
        ∧ (¬(rv.source_file = mi ∨ rv.redef_allowed_by = some mi) →
           alGet (l.foldl (applyStep mi) acc).1 k = some d
           ∧ ∃ msg f0, ConfigLoadWarning.valueError k msg f0 ∈ Δ))
      ∧ (alGet acc.1 k = Option.none →
        (isNewable k = true →
           alGet (l.foldl (applyStep mi) acc).1 k = some (rv.value, rv.source_file)
           ∧ ∀ msg f0, ConfigLoadWarning.valueError k msg f0 ∉ Δ)
        ∧ (isNewable k = false →
           alGet (l.foldl (applyStep mi) acc).1 k = Option.none
           ∧ ∃ msg f0, ConfigLoadWarning.valueError k msg f0 ∈ Δ)) := by
  obtain ⟨l₁, l₂, hsplit⟩ := List.append_of_mem hmem
  subst hsplit
  obtain ⟨h1, h2⟩ := nodup_split_not_mem hnd
  rw [List.foldl_append, List.foldl_cons]
  have hacc₁ : alGet (l₁.foldl (applyStep mi) acc).1 k = alGet acc.1 k :=
    foldl_applyStep_get_not_mem l₁ acc h1
  obtain ⟨Δ₁, hΔ₁, hP₁⟩ := foldl_applyStep_warnings mi l₁ acc
  have hnk₁ : ∀ msg f0, ConfigLoadWarning.valueError k msg f0 ∉ Δ₁ := by
    intro msg f0 hmem'
    obtain ⟨k₀, _, _, heq, hk₀⟩ := hP₁ _ hmem'
    obtain ⟨rfl⟩ := (ConfigLoadWarning.valueError.injEq _ _ _ _ _ _).mp heq
    exact h1 hk₀
  set acc₁ := l₁.foldl (applyStep mi) acc with hacc₁def
  have step : ∀ (acc₂ : ConfigValues × List ConfigLoadWarning),
      ∃ Δ₂, (l₂.foldl (applyStep mi) acc₂).2 = acc₂.2 ++ Δ₂ ∧
        (∀ msg f0, ConfigLoadWarning.valueError k msg f0 ∉ Δ₂) ∧
        alGet (l₂.foldl (applyStep mi) acc₂).1 k = alGet acc₂.1 k := by
    intro acc₂
    obtain ⟨Δ₂, hΔ₂, hP₂⟩ := foldl_applyStep_warnings mi l₂ acc₂
    refine ⟨Δ₂, hΔ₂, ?_, foldl_applyStep_get_not_mem l₂ acc₂ h2⟩
    intro msg f0 hmem'
    obtain ⟨k₀, _, _, heq, hk₀⟩ := hP₂ _ hmem'
    obtain ⟨rfl⟩ := (ConfigLoadWarning.valueError.injEq _ _ _ _ _ _).mp heq
    exact h2 hk₀
  cases hcase : alGet acc.1 k with
  | some d0 =>
    have hd₁ : alGet acc₁.1 k = some d0 := by rw [hacc₁, hcase]
    by_cases hc : rv.source_file = mi ∨ rv.redef_allowed_by = some mi
    · rw [applyStep_occupied_accept hd₁ hc]
      obtain ⟨Δ₂, hΔ₂, hnk₂, hget₂⟩ :=
        step (alInsert acc₁.1 k (rv.value, rv.source_file), acc₁.2)
      refine ⟨Δ₁ ++ Δ₂, ?_, ?_, ?_⟩
      · rw [hΔ₂]
        show acc₁.2 ++ Δ₂ = acc.2 ++ (Δ₁ ++ Δ₂)
        rw [hΔ₁, List.append_assoc]
      · intro d hd
        refine ⟨fun _ => ⟨?_, ?_⟩, fun hcon => absurd hc hcon⟩
        · rw [hget₂]
          exact alGet_alInsert_self _ k (rv.value, rv.source_file)
        · intro msg f0 hw
          rcases List.mem_append.mp hw with hw | hw
          · exact hnk₁ msg f0 hw
          · exact hnk₂ msg f0 hw
      · intro hn
        exact Option.noConfusion hn
    · push_neg at hc
      rw [applyStep_occupied_reject hd₁ hc.1 hc.2]
      obtain ⟨Δ₂, hΔ₂, hnk₂, hget₂⟩ := step (acc₁.1, acc₁.2 ++
        [ConfigLoadWarning.valueError k
          ("Value from file " ++ Nat.repr rv.source_file ++
           " ignored due to #redef missing in arcella.toml")
          ("layer_" ++ Nat.repr rv.source_layer ++ ".toml")])
      refine ⟨Δ₁ ++ (ConfigLoadWarning.valueError k
          ("Value from file " ++ Nat.repr rv.source_file ++
           " ignored due to #redef missing in arcella.toml")
          ("layer_" ++ Nat.repr rv.source_layer ++ ".toml") :: Δ₂), ?_, ?_, ?_⟩
      · rw [hΔ₂, hΔ₁]
        simp
      · intro d hd
        obtain rfl : d0 = d := by injection hd
        refine ⟨fun hcon => absurd hcon (by push_neg; exact hc), fun _ => ⟨?_, ?_⟩⟩
        · rw [hget₂]; exact hd₁
        · exact ⟨"Value from file " ++ Nat.repr rv.source_file ++
            " ignored due to #redef missing in arcella.toml",
            "layer_" ++ Nat.repr rv.source_layer ++ ".toml", by simp⟩
      · intro hn
        exact Option.noConfusion hn
  | none =>
    have hn₁ : alGet acc₁.1 k = Option.none := by rw [hacc₁, hcase]
    by_cases hnew : isNewable k = true
    · rw [applyStep_vacant_newable hn₁ hnew]
      obtain ⟨Δ₂, hΔ₂, hnk₂, hget₂⟩ :=
        step (acc₁.1 ++ [(k, rv.value, rv.source_file)], acc₁.2)
      refine ⟨Δ₁ ++ Δ₂, ?_, ?_, ?_⟩
      · rw [hΔ₂]
        show acc₁.2 ++ Δ₂ = acc.2 ++ (Δ₁ ++ Δ₂)
        rw [hΔ₁, List.append_assoc]
      · intro d hd
        exact Option.noConfusion hd
      · refine fun _ => ⟨fun _ => ⟨?_, ?_⟩, fun hcon => by simp [hnew] at hcon⟩
        · rw [hget₂, alGet_append, hn₁]
          simp [alGet]
        · intro msg f0 hw
          rcases List.mem_append.mp hw with hw | hw
          · exact hnk₁ msg f0 hw
          · exact hnk₂ msg f0 hw
    · rw [Bool.not_eq_true] at hnew
      rw [applyStep_vacant_reject hn₁ hnew]
      obtain ⟨Δ₂, hΔ₂, hnk₂, hget₂⟩ := step (acc₁.1, acc₁.2 ++
        [ConfigLoadWarning.valueError k
          ("Value from layer " ++ Nat.repr rv.source_layer ++
           " ignored due to missing in default config")
          ("layer_" ++ Nat.repr rv.source_layer ++ ".toml")])
      refine ⟨Δ₁ ++ (ConfigLoadWarning.valueError k
          ("Value from layer " ++ Nat.repr rv.source_layer ++
           " ignored due to missing in default config")
          ("layer_" ++ Nat.repr rv.source_layer ++ ".toml") :: Δ₂), ?_, ?_, ?_⟩
      · rw [hΔ₂, hΔ₁]
        simp
      · intro d hd
        exact Option.noConfusion hd
      · refine fun _ => ⟨fun hcon => by simp [hnew] at hcon, fun _ => ⟨?_, ?_⟩⟩
        · rw [hget₂]; exact hn₁
        · exact ⟨"Value from layer " ++ Nat.repr rv.source_layer ++
            " ignored due to missing in default config",
            "layer_" ++ Nat.repr rv.source_layer ++ ".toml", by simp⟩

/-! ## C1 — schema-gated application -/

/-- C1: for every merge run whose index lookups succeed and every key `k`
present in the default schema (with distinct schema keys) that received a
value `rv` in the reconciliation pass, the final map holds the pass-1 value
attributed to its defining file index exactly when that defining index is the
primary file's index or the recorded redef grantor is the primary file's
index (and then pass 2 emits no `ValueError` for `k`); in every other case a
`ValueError` for `k` is emitted and the default value is kept, attributed to
the default schema's index. -/
theorem merge_schema_gated_application
    (dc : TomlFileData) (configs : List TomlFileData)
    (config_files : List String) (config_dir : String)
    (warnings : List ConfigLoadWarning) (mi di : Nat) (k : String)
    (rv : ResolvedValue) (dv : Value) (dfi : Nat)
    (hm : indexOfPath config_files (pathJoin config_dir MAIN_CONFIG_FILENAME) = some mi)
    (hd : indexOfPath config_files DEFAULT_CONFIG_FILENAME = some di)
    (hdnd : (dc.values.map Prod.fst).Nodup)
    (hk : alGet (reconcile configs warnings).1 k = some rv)
    (hdef : alGet dc.values k = some (dv, dfi)) :
    ∃ final wout Δ,
      merge_config dc configs config_files config_dir warnings = some (final, wout)
      ∧ wout = (reconcile configs warnings).2 ++ Δ
      ∧ ((rv.source_file = mi ∨ rv.redef_allowed_by = some mi) →
          alGet final k = some (rv.value, rv.source_file)
          ∧ ∀ msg f0, ConfigLoadWarning.valueError k msg f0 ∉ Δ)
      ∧ (¬(rv.source_file = mi ∨ rv.redef_allowed_by = some mi) →
          alGet final k = some (dv, di)
          ∧ ∃ msg f0, ConfigLoadWarning.valueError k msg f0 ∈ Δ) := by
  have hnd : ((reconcile configs warnings).1.map Prod.fst).Nodup :=
    reconcile_keys_nodup configs warnings
  have hmem := alGet_some_mem hk
  obtain ⟨Δ, hΔ, hocc, _⟩ := foldl_applyStep_of_mem mi
    (seedDefaults dc di, (reconcile configs warnings).2) hnd hmem
  have hseed : alGet (seedDefaults dc di) k = some (dv, di) :=
    seedDefaults_get_mem di hdnd hdef
  exact ⟨_, _, Δ, merge_config_eq hm hd, hΔ,
    fun hc => (hocc _ hseed).1 hc, fun hc => (hocc _ hseed).2 hc⟩

/-- C1 witness: the redef-denial scenario — primary file without `#redef`,
included file sets `arcella.log.level`; the override is rejected, the default
kept at the default index, and a `ValueError` for the key is emitted. -/
theorem merge_schema_gated_application_witness :
    ∃ final wout Δ,
      merge_config ⟨[], [("arcella.log.level", Value.str "info", 0)]⟩
          [⟨[], []⟩, ⟨[], [("arcella.log.level", Value.str "debug", 2)]⟩]
          threeFiles "config" [] = some (final, wout)
      ∧ wout = (reconcile [⟨[], []⟩,
          ⟨[], [("arcella.log.level", Value.str "debug", 2)]⟩] []).2 ++ Δ
      ∧ (((⟨Value.str "debug", 1, 2, Option.none⟩ : ResolvedValue).source_file = 1
          ∨ (⟨Value.str "debug", 1, 2, Option.none⟩ : ResolvedValue).redef_allowed_by = some 1) →
          alGet final "arcella.log.level" = some (Value.str "debug", 2)
          ∧ ∀ msg f0, ConfigLoadWarning.valueError "arcella.log.level" msg f0 ∉ Δ)
      ∧ (¬((⟨Value.str "debug", 1, 2, Option.none⟩ : ResolvedValue).source_file = 1
          ∨ (⟨Value.str "debug", 1, 2, Option.none⟩ : ResolvedValue).redef_allowed_by = some 1) →
          alGet final "arcella.log.level" = some (Value.str "info", 0)
          ∧ ∃ msg f0, ConfigLoadWarning.valueError "arcella.log.level" msg f0 ∈ Δ) :=
  merge_schema_gated_application
    ⟨[], [("arcella.log.level", Value.str "info", 0)]⟩
    [⟨[], []⟩, ⟨[], [("arcella.log.level", Value.str "debug", 2)]⟩]
    threeFiles "config" [] 1 0 "arcella.log.level"
    ⟨Value.str "debug", 1, 2, Option.none⟩ (Value.str "info") 0
    rfl rfl (by decide) rfl rfl

/-! ## C4 (amended) — namespace gating of new keys -/

/-- C4 amended: for every merge run (successful index lookups) and every
reconciled key absent from the default schema, the key is inserted into the
final map, attributed to its defining file, exactly when `is_newable` holds —
which in the source is a plain prefix test `starts_with("arcella.custom") ||
starts_with("arcella.modules")`, with no trailing dot required — and otherwise
a `ValueError` is emitted and the key is absent from the final map. -/
theorem merge_new_key_namespace_gating
    (dc : TomlFileData) (configs : List TomlFileData)
    (config_files : List String) (config_dir : String)
    (warnings : List ConfigLoadWarning) (mi di : Nat) (k : String)
    (rv : ResolvedValue)
    (hm : indexOfPath config_files (pathJoin config_dir MAIN_CONFIG_FILENAME) = some mi)
    (hd : indexOfPath config_files DEFAULT_CONFIG_FILENAME = some di)
    (hk : alGet (reconcile configs warnings).1 k = some rv)
    (hdef : alGet dc.values k = Option.none) :
    ∃ final wout Δ,
      merge_config dc configs config_files config_dir warnings = some (final, wout)
      ∧ wout = (reconcile configs warnings).2 ++ Δ
      ∧ (isNewable k = true →
          alGet final k = some (rv.value, rv.source_file)
          ∧ ∀ msg f0, ConfigLoadWarning.valueError k msg f0 ∉ Δ)
      ∧ (isNewable k = false →
          alGet final k = Option.none
          ∧ ∃ msg f0, ConfigLoadWarning.valueError k msg f0 ∈ Δ) := by
  have hnd : ((reconcile configs warnings).1.map Prod.fst).Nodup :=
    reconcile_keys_nodup configs warnings
  have hmem := alGet_some_mem hk
  obtain ⟨Δ, hΔ, _, hvac⟩ := foldl_applyStep_of_mem mi
    (seedDefaults dc di, (reconcile configs warnings).2) hnd hmem
  have hseed : alGet (seedDefaults dc di) k = Option.none :=
    seedDefaults_get_none di hdef
  exact ⟨_, _, Δ, merge_config_eq hm hd, hΔ,
    fun hc => (hvac hseed).1 hc, fun hc => (hvac hseed).2 hc⟩

/-- C4 witness: the brand-new key `arcella.server.unknown_option`, set only in
an included file, is not newable: it is rejected with a `ValueError` and
absent from the final map. -/
theorem merge_new_key_namespace_gating_witness :
    ∃ final wout Δ,
      merge_config ⟨[], [("arcella.log.level", Value.str "info", 0)]⟩
          [⟨[], []⟩, ⟨[], [("arcella.server.unknown_option", Value.str "v", 2)]⟩]
          threeFiles "config" [] = some (final, wout)
      ∧ wout = (reconcile [⟨[], []⟩,
          ⟨[], [("arcella.server.unknown_option", Value.str "v", 2)]⟩] []).2 ++ Δ
      ∧ (isNewable "arcella.server.unknown_option" = true →
          alGet final "arcella.server.unknown_option" = some (Value.str "v", 2)
          ∧ ∀ msg f0, ConfigLoadWarning.valueError "arcella.server.unknown_option" msg f0 ∉ Δ)
      ∧ (isNewable "arcella.server.unknown_option" = false →
          alGet final "arcella.server.unknown_option" = Option.none
          ∧ ∃ msg f0, ConfigLoadWarning.valueError "arcella.server.unknown_option" msg f0 ∈ Δ) :=
  merge_new_key_namespace_gating
    ⟨[], [("arcella.log.level", Value.str "info", 0)]⟩
    [⟨[], []⟩, ⟨[], [("arcella.server.unknown_option", Value.str "v", 2)]⟩]
    threeFiles "config" [] 1 0 "arcella.server.unknown_option"
    ⟨Value.str "v", 1, 2, Option.none⟩ rfl rfl rfl rfl

/-! ## C9 (amended) — merge-engine totality given its index anchors -/

/-- C9 amended: for every input whose known-files table contains the primary
file's path and the default schema's filename (the two indices the source
unwraps — with any other input the engine panics, see the counterexample),
the merge engine returns a result; every warning it adds is a `ValueError`,
and the final map contains every default-schema key. -/
theorem merge_config_total_given_indices
    (dc : TomlFileData) (configs : List TomlFileData)
    (config_files : List String) (config_dir : String)
    (warnings : List ConfigLoadWarning) (mi di : Nat)
    (hm : indexOfPath config_files (pathJoin config_dir MAIN_CONFIG_FILENAME) = some mi)
    (hd : indexOfPath config_files DEFAULT_CONFIG_FILENAME = some di) :
    ∃ final wout Δ,
      merge_config dc configs config_files config_dir warnings = some (final, wout)
      ∧ wout = warnings ++ Δ
      ∧ (∀ w ∈ Δ, ∃ k₀ msg f0, w = ConfigLoadWarning.valueError k₀ msg f0)
      ∧ ∀ e ∈ dc.values, (alGet final e.1).isSome := by
  obtain ⟨Δ₀, hΔ₀, hP₀⟩ := reconcile_warnings configs warnings
  obtain ⟨Δ₁, hΔ₁, hP₁⟩ := foldl_applyStep_warnings mi (reconcile configs warnings).1
    (seedDefaults dc di, (reconcile configs warnings).2)
  refine ⟨_, _, Δ₀ ++ Δ₁, merge_config_eq hm hd, ?_, ?_, ?_⟩
  · rw [hΔ₁]
    show (reconcile configs warnings).2 ++ Δ₁ = warnings ++ (Δ₀ ++ Δ₁)
    rw [hΔ₀, List.append_assoc]
  · intro w hw
    rcases List.mem_append.mp hw with hw | hw
    · exact hP₀ w hw
    · obtain ⟨k₀, msg, f0, hw', _⟩ := hP₁ w hw
      exact ⟨k₀, msg, f0, hw'⟩
  · intro e he
    refine foldl_applyStep_isSome mi _ _ e.1 ?_
    exact seedDefaults_get_isSome di (List.mem_map_of_mem Prod.fst he)

/-- C9 witness: a one-key default schema with no loaded files merges to a
complete map with no added warnings. -/
theorem merge_config_total_given_indices_witness :
    ∃ final wout Δ,
      merge_config ⟨[], [("arcella.log.level", Value.str "info", 0)]⟩ []
          threeFiles "config" [] = some (final, wout)
      ∧ wout = [] ++ Δ
      ∧ (∀ w ∈ Δ, ∃ k₀ msg f0, w = ConfigLoadWarning.valueError k₀ msg f0)
      ∧ ∀ e ∈ ([("arcella.log.level", Value.str "info", 0)] : ConfigValues),
          (alGet final e.1).isSome :=
  merge_config_total_given_indices
    ⟨[], [("arcella.log.level", Value.str "info", 0)]⟩ [] threeFiles "config"
    [] 1 0 rfl rfl

/-! ## C3 (amended) — what a `#redef`-suffixed entry does -/

/-- C3 amended: processing a `#redef`-suffixed entry in the reconciliation
pass records the file's index as the redef grantor and leaves the stored
value unchanged *when the un-suffixed key is already in the working map*;
when the un-suffixed key is not yet in the working map, the `#redef` entry
inserts its own value as the entry (with no grantor recorded), so a `#redef`
key with no other assignment does contribute a value of its own. -/
theorem redef_grant_seen_vs_vacant (layer_idx : Nat)
    (prelim : List (String × ResolvedValue)) (warnings : List ConfigLoadWarning)
    (key : String) (value : Value) (file_idx : Nat)
    (hr : (stripRedef key).2 = true) :
    (∀ e, alGet prelim (stripRedef key).1 = some e →
      mergeStep layer_idx (prelim, warnings) (key, value, file_idx)
        = (alInsert prelim (stripRedef key).1
            { e with redef_allowed_by := some file_idx }, warnings))
    ∧ (alGet prelim (stripRedef key).1 = Option.none →
      mergeStep layer_idx (prelim, warnings) (key, value, file_idx)
        = (prelim ++ [((stripRedef key).1,
            ⟨value, layer_idx, file_idx, Option.none⟩)], warnings)) := by
  constructor
  · intro e he
    simp [mergeStep, he, hr]
  · intro he
    simp [mergeStep, he, hr]

/-- C3 witness: `arcella.log.level#redef` leaves a seen value untouched while
recording the grantor, and inserts its own value when the key is unseen. -/
theorem redef_grant_seen_vs_vacant_witness :
    mergeStep 0 ([("arcella.log.level", ⟨Value.str "debug", 1, 2, Option.none⟩)], [])
        ("arcella.log.level#redef", Value.str "warn", 1)
      = ([("arcella.log.level", ⟨Value.str "debug", 1, 2, some 1⟩)], [])
    ∧ mergeStep 0 ([], []) ("arcella.log.level#redef", Value.str "warn", 1)
      = ([("arcella.log.level", ⟨Value.str "warn", 0, 1, Option.none⟩)], []) := by
  constructor
  · exact (redef_grant_seen_vs_vacant 0
      [("arcella.log.level", ⟨Value.str "debug", 1, 2, Option.none⟩)] []
      "arcella.log.level#redef" (Value.str "warn") 1 rfl).1
      ⟨Value.str "debug", 1, 2, Option.none⟩ rfl
  · exact (redef_grant_seen_vs_vacant 0 [] []
      "arcella.log.level#redef" (Value.str "warn") 1 rfl).2 rfl

/-! ## Array-of-tables lemmas -/

/-- Characterization of a successful array-of-tables conversion within the
depth limit: each table is processed independently with the empty path prefix
and fresh accumulators, its collected values become one `Map` element
(provenance dropped), and its collected includes are appended in element
order. -/
theorem convertAOT_ok_spec (fidx depth : Nat) (h : ¬ depth > MAX_TOML_DEPTH) :
    ∀ (arr : List (List (String × TomlEditItem))) (inc : List String)
      (out : List String × List Value × TraversalResult),
      convert_array_of_tables_to_value arr depth fidx inc = .ok out →
      ∃ parts : List (List String × ConfigValues × TraversalResult),
        List.Forall₂ (fun t p =>
          table_to_value_map_recursive t [] fidx [] [] (depth + 1) = .ok p) arr parts
        ∧ out.1 = inc ++ (parts.map (fun p => p.1)).flatten
        ∧ out.2.1 = parts.map (fun p => Value.map (p.2.1.map (fun e => (e.1, e.2.1)))) := by
  intro arr
  induction arr with
  | nil =>
    intro inc out hok
    unfold convert_array_of_tables_to_value at hok
    rw [dif_neg h] at hok
    obtain rfl : (inc, ([] : List Value), TraversalResult.full) = out := by
      injection hok
    exact ⟨[], List.Forall₂.nil, by simp, by simp⟩
  | cons t rest ih =>
    intro inc out hok
    unfold convert_array_of_tables_to_value at hok
    rw [dif_neg h] at hok
    cases htv : table_to_value_map_recursive t [] fidx [] [] (depth + 1) with
    | error e =>
      simp only [htv, Except.bind, bind] at hok
      exact Except.noConfusion hok
    | ok tv =>
      obtain ⟨tinc, tvals, tres⟩ := tv
      simp only [htv, Except.bind, bind] at hok
      cases hcv : convert_array_of_tables_to_value rest depth fidx (inc ++ tinc) with
      | error e =>
        simp only [hcv] at hok
        exact Except.noConfusion hok
      | ok cv =>
        obtain ⟨inc', elems, restRes⟩ := cv
        simp only [hcv] at hok
        obtain rfl : (inc', Value.map (tvals.map (fun e => (e.1, e.2.1))) :: elems,
            tres.combine restRes) = out := by injection hok
        obtain ⟨parts, hall, hinc, helems⟩ := ih (inc ++ tinc) (inc', elems, restRes) hcv
        refine ⟨(tinc, tvals, tres) :: parts, List.Forall₂.cons htv hall, ?_, ?_⟩
        · simpa using hinc
        · simpa using helems

/-! ## C8 — array-of-tables element-relativity -/

/-- C8: within the depth limit, an array-of-tables at dotted path `P` is
stored as exactly one entry `joinPath P` (the key set grows by at most that
one key) whose value is a `Value.array` of `Value.map`s, one per table, where
each element map holds the element's own collected values — collected with
the *empty* path prefix, i.e. relative to the element and not prefixed by
`P`; no per-element dotted keys are produced, and a nested array-of-tables
inside an element is handled by the same element-relative collection
(`table_to_value_map_recursive` at the empty path). -/
theorem array_of_tables_element_relative
    (arr : List (List (String × TomlEditItem))) (P : List String)
    (fidx : Nat) (inc : List String) (vals : ConfigValues) (depth : Nat)
    (out : List String × List Value × TraversalResult)
    (h : ¬ depth > MAX_TOML_DEPTH)
    (hok : convert_array_of_tables_to_value arr depth fidx inc = .ok out) :
    collect_paths_recursive (.arrayOfTables arr) P fidx inc vals depth
      = .ok (out.1, alInsert vals (joinPath P) (Value.array out.2.1, fidx), out.2.2)
    ∧ alKeys (alInsert vals (joinPath P) (Value.array out.2.1, fidx))
      = (if (alGet vals (joinPath P)).isSome then alKeys vals
         else alKeys vals ++ [joinPath P])
    ∧ ∃ parts : List (List String × ConfigValues × TraversalResult),
        List.Forall₂ (fun t p =>
          table_to_value_map_recursive t [] fidx [] [] (depth + 1) = .ok p) arr parts
        ∧ out.2.1 = parts.map (fun p => Value.map (p.2.1.map (fun e => (e.1, e.2.1)))) := by
  refine ⟨?_, ?_, ?_⟩
  · unfold collect_paths_recursive
    rw [dif_neg h]
    simp only [hok, Except.bind, bind]
  · cases hg : alGet vals (joinPath P) with
    | some d =>
      simp only [hg, Option.isSome_some, if_true]
      exact alKeys_alInsert_of_get_some _ hg
    | none =>
      simp only [hg, Option.isSome_none, Bool.false_eq_true, if_false]
      rw [alInsert_of_get_none _ hg]
      simp [alKeys]
  · obtain ⟨parts, hall, _, helems⟩ := convertAOT_ok_spec fidx depth h arr inc out hok
    exact ⟨parts, hall, helems⟩

/-- The concrete two-element `[[servers]]` array of tables. -/
def serversArr : List (List (String × TomlEditItem)) :=
  [[("name", .value (.str "alpha"))], [("name", .value (.str "beta"))]]

/-- The conversion output of `serversArr` at depth 1. -/
def serversOut : List String × List Value × TraversalResult :=
  ([], [Value.map [("name", Value.str "alpha")],
        Value.map [("name", Value.str "beta")]], TraversalResult.full)

/-- C8 witness: the two-element `[[servers]]` example, as encountered at
depth 1 under the document root — exactly one stored key `servers`, an array
of two maps with element-relative keys. -/
theorem array_of_tables_element_relative_witness :
    collect_paths_recursive (.arrayOfTables serversArr) ["servers"] 0 [] [] 1
      = .ok (serversOut.1,
             alInsert [] (joinPath ["servers"]) (Value.array serversOut.2.1, 0),
             serversOut.2.2)
    ∧ alKeys (alInsert [] (joinPath ["servers"]) (Value.array serversOut.2.1, 0))
      = (if (alGet ([] : ConfigValues) (joinPath ["servers"])).isSome
         then alKeys ([] : ConfigValues)
         else alKeys ([] : ConfigValues) ++ [joinPath ["servers"]])
    ∧ ∃ parts : List (List String × ConfigValues × TraversalResult),
        List.Forall₂ (fun t p =>
          table_to_value_map_recursive t [] 0 [] [] (1 + 1) = .ok p) serversArr parts
        ∧ serversOut.2.1
          = parts.map (fun p => Value.map (p.2.1.map (fun e => (e.1, e.2.1)))) :=
  array_of_tables_element_relative serversArr ["servers"] 0 [] [] 1 serversOut
    (by decide)
    (by simp [serversArr, serversOut, convert_array_of_tables_to_value,
      table_to_value_map_recursive, collect_paths_recursive, MAX_TOML_DEPTH,
      fromTomlValue, joinPath, alInsert, INCLUDES_KEY,
      TraversalResult.combine, Except.bind, bind, Except.pure, pure])

/-! ## C10 — `includes` directives inside array-of-tables elements -/

/-- C10: a key literally named `includes` inside a table — in particular
inside a table element of an array-of-tables, whose elements are processed by
the very same `table_to_value_map_recursive` — is diverted: processing that
entry extends the includes accumulator by the entry's contribution (its bare
string value, or every string element of its array value in order, nothing
for any other item) and leaves the collected values untouched, so the entry
never becomes a key of the element's stored map; and a successful
array-of-tables conversion appends each element's collected includes to the
file's overall list in element order. -/
theorem includes_inside_array_of_tables
    (item : TomlEditItem) (rest : List (String × TomlEditItem))
    (P : List String) (fidx : Nat) (inc : List String) (vals : ConfigValues)
    (depth : Nat) (h : ¬ depth > MAX_TOML_DEPTH) :
    (table_to_value_map_recursive ((INCLUDES_KEY, item) :: rest) P fidx inc vals depth
       = table_to_value_map_recursive rest P fidx (inc ++ includesFrom item) vals depth)
    ∧ (∀ s, includesFrom (.value (.str s)) = [s])
    ∧ (∀ l, includesFrom (.value (.array l)) = l.filterMap TomlEditValue.asStr)
    ∧ (∀ t, includesFrom (.table t) = [])
    ∧ (∀ arr out, convert_array_of_tables_to_value arr depth fidx inc = .ok out →
        ∃ parts : List (List String × ConfigValues × TraversalResult),
          List.Forall₂ (fun t p =>
            table_to_value_map_recursive t [] fidx [] [] (depth + 1) = .ok p) arr parts
          ∧ out.1 = inc ++ (parts.map (fun p => p.1)).flatten) := by
  refine ⟨?_, fun s => rfl, fun l => rfl, fun t => rfl, ?_⟩
  · conv_lhs => rw [table_to_value_map_recursive.eq_def]
    rw [dif_neg h]
    simp [INCLUDES_KEY]
  · intro arr out hok
    obtain ⟨parts, hall, hinc, _⟩ := convertAOT_ok_spec fidx depth h arr inc out hok
    exact ⟨parts, hall, hinc⟩

/-- C10 witness: an element `{ name = "a", includes = "x.toml" }` processed
at depth 2 (inside an array-of-tables encountered at depth 1). -/
theorem includes_inside_array_of_tables_witness :
    (table_to_value_map_recursive
        [(INCLUDES_KEY, .value (.str "x.toml")), ("name", .value (.str "a"))]
        [] 0 [] [] 2
       = table_to_value_map_recursive [("name", .value (.str "a"))] [] 0
           ([] ++ includesFrom (.value (.str "x.toml"))) [] 2)
    ∧ (∀ s, includesFrom (.value (.str s)) = [s])
    ∧ (∀ l, includesFrom (.value (.array l)) = l.filterMap TomlEditValue.asStr)
    ∧ (∀ t, includesFrom (.table t) = [])
    ∧ (∀ arr out, convert_array_of_tables_to_value arr 2 0 [] = .ok out →
        ∃ parts : List (List String × ConfigValues × TraversalResult),
          List.Forall₂ (fun t p =>
            table_to_value_map_recursive t [] 0 [] [] (2 + 1) = .ok p) arr parts
          ∧ out.1 = [] ++ (parts.map (fun p => p.1)).flatten) :=
  includes_inside_array_of_tables (.value (.str "x.toml"))
    [("name", .value (.str "a"))] [] 0 [] [] 2 (by decide)

/-! ## Path-order lemmas -/

theorem char_eq_of_toNat_eq {a b : Char} (h : a.toNat = b.toNat) : a = b := by
  apply Char.eq_of_val_eq
  exact UInt32.toNat.inj h

theorem string_eq_of_data_eq {a b : String} (h : a.data = b.data) : a = b := by
  cases a; cases b; simp only at h; rw [h]

theorem charListLe_total : ∀ a b : List Char,
    charListLe a b = true ∨ charListLe b a = true := by
  intro a
  induction a with
  | nil => intro b; left; rfl
  | cons x xs ih =>
    intro b
    cases b with
    | nil => right; rfl
    | cons y ys =>
      by_cases hxy : x = y
      · subst hxy
        simpa [charListLe] using ih ys
      · have hyx : y ≠ x := fun he => hxy he.symm
        have hne : x.toNat ≠ y.toNat := fun he => hxy (char_eq_of_toNat_eq he)
        rcases Nat.lt_or_ge x.toNat y.toNat with hlt | hge
        · left; simp [charListLe, hxy, hlt]
        · right
          have : y.toNat < x.toNat := lt_of_le_of_ne hge (fun he => hne he.symm)
          simp [charListLe, hyx, this]

theorem charListLe_trans : ∀ a b c : List Char,
    charListLe a b = true → charListLe b c = true → charListLe a c = true := by
  intro a
  induction a with
  | nil => intro b c _ _; rfl
  | cons x xs ih =>
    intro b c hab hbc
    cases b with
    | nil => simp [charListLe] at hab
    | cons y ys =>
      cases c with
      | nil => simp [charListLe] at hbc
      | cons z zs =>
        by_cases hxy : x = y <;> by_cases hyz : y = z
        · subst hxy; subst hyz
          simp only [charListLe, if_pos rfl] at hab hbc ⊢
          exact ih ys zs hab hbc
        · subst hxy
          simp only [charListLe, if_pos rfl] at hab
          simp only [charListLe, if_neg hyz] at hbc
          simp only [charListLe, if_neg hyz]
          exact hbc
        · subst hyz
          simp only [charListLe, if_neg hxy] at hab
          simp only [charListLe, if_neg hxy]
          exact hab
        · simp only [charListLe, if_neg hxy] at hab
          simp only [charListLe, if_neg hyz] at hbc
          rw [decide_eq_true_iff] at hab hbc
          by_cases hxz : x = z
          · subst hxz
            exact absurd (Nat.lt_trans hab hbc) (Nat.lt_irrefl _)
          · simp only [charListLe, if_neg hxz]
            rw [decide_eq_true_iff]
            exact Nat.lt_trans hab hbc

theorem charListLe_antisymm : ∀ a b : List Char,
    charListLe a b = true → charListLe b a = true → a = b := by
  intro a
  induction a with
  | nil =>
    intro b _ hba
    cases b with
    | nil => rfl
    | cons y ys => simp [charListLe] at hba
  | cons x xs ih =>
    intro b hab hba
    cases b with
    | nil => simp [charListLe] at hab
    | cons y ys =>
      by_cases hxy : x = y
      · subst hxy
        simp only [charListLe, if_pos rfl] at hab hba
        rw [ih ys hab hba]
      · have hyx : y ≠ x := fun he => hxy he.symm
        simp only [charListLe, if_neg hxy] at hab
        simp only [charListLe, if_neg hyx] at hba
        rw [decide_eq_true_iff] at hab hba
        exact absurd (Nat.lt_trans hab hba) (Nat.lt_irrefl _)

instance : IsTotal String pathLeR :=
  ⟨fun p q => charListLe_total p.data q.data⟩

instance : IsTrans String pathLeR :=
  ⟨fun p q r => charListLe_trans p.data q.data r.data⟩

instance : IsAntisymm String pathLeR :=
  ⟨fun p q hpq hqp => string_eq_of_data_eq (charListLe_antisymm _ _ hpq hqp)⟩

theorem sortPaths_perm (l : List String) : (sortPaths l).Perm l :=
  List.perm_insertionSort pathLeR l

theorem sortPaths_sorted (l : List String) : List.Sorted pathLeR (sortPaths l) :=
  List.sorted_insertionSort pathLeR l

/-! ## Deduplication lemmas -/

theorem mem_dedupKeepFirst {q : String} : ∀ {l : List String},
    q ∈ dedupKeepFirst l ↔ q ∈ l := by
  intro l
  induction l with
  | nil => simp [dedupKeepFirst]
  | cons p rest ih =>
    by_cases hq : q = p
    · subst hq
      simp [dedupKeepFirst]
    · simp [dedupKeepFirst, hq, List.mem_filter, ih]

theorem nodup_dedupKeepFirst : ∀ (l : List String), (dedupKeepFirst l).Nodup := by
  intro l
  induction l with
  | nil => simp [dedupKeepFirst]
  | cons p rest ih =>
    rw [dedupKeepFirst, List.nodup_cons]
    constructor
    · intro hmem
      have := (List.mem_filter.mp hmem).2
      simp at this
    · exact List.Nodup.filter _ ih

theorem dedupKeepFirst_of_nodup : ∀ {l : List String}, l.Nodup →
    dedupKeepFirst l = l := by
  intro l
  induction l with
  | nil => intro _; rfl
  | cons p rest ih =>
    intro h
    rw [List.nodup_cons] at h
    rw [dedupKeepFirst, ih h.2, List.filter_eq_self.mpr]
    intro a ha
    simp only [ne_eq, decide_eq_true_iff]
    exact fun he => h.1 (he ▸ ha)

/-! ## Include-resolver lemmas -/

/-- Everything a successful directory probe returns passes the
valid-TOML-not-template predicate. -/
theorem find_toml_valid {fs : FileSystem} {d : String} {r : Option (List String)}
    (h : find_toml_files_in_dir fs d = .ok r) :
    ∀ p ∈ r.getD [], is_valid_toml_file_path p = true := by
  unfold find_toml_files_in_dir at h
  split at h
  · exact absurd h (by simp)
  · split at h
    · obtain rfl : Option.none = r := by injection h
      intro p hp
      simp at hp
    · obtain rfl : some (sortByLowerFileName
          (((alGet fs.dirs d).getD []).filter
            (fun p => !fs.isDir p && is_valid_toml_file_path p))) = r := by
        injection h
      intro p hp
      simp only [Option.getD] at hp
      have hp' := (List.perm_insertionSort lowerNameLe _).mem_iff.mp hp
      have := (List.mem_filter.mp hp').2
      exact (Bool.and_eq_true _ _).mp this |>.2

/-- Everything a successful multi-directory scan returns passes the
valid-TOML-not-template predicate. -/
theorem dirScans_valid {fs : FileSystem} : ∀ {dirs : List String}
    {ds : List String}, dirScans fs dirs = .ok ds →
    ∀ p ∈ ds, is_valid_toml_file_path p = true := by
  intro dirs
  induction dirs with
  | nil =>
    intro ds h p hp
    obtain rfl : ([] : List String) = ds := by
      simp only [dirScans] at h
      injection h
    simp at hp
  | cons d rest ih =>
    intro ds h p hp
    simp only [dirScans] at h
    cases hf : find_toml_files_in_dir fs d with
    | error e =>
      rw [hf] at h
      simp [Except.bind, bind] at h
    | ok r =>
      rw [hf] at h
      simp only [Except.bind, bind] at h
      cases hr : dirScans fs rest with
      | error e =>
        rw [hr] at h
        simp at h
      | ok rest' =>
        rw [hr] at h
        simp only at h
        obtain rfl : r.getD [] ++ rest' = ds := by injection h
        rcases List.mem_append.mp hp with hp | hp
        · exact find_toml_valid hf p hp
        · exact ih hr p hp

/-! ## C7 (amended) — deterministic include expansion, sorted case-sensitively -/

/-- Mixed-order directory scenario: `/d` holds `z.toml`, `a.toml`, `m.toml`,
with the enumeration order a parameter. -/
def fsZam (entries : List String) : FileSystem :=
  ⟨[("/d/z.toml", .table []), ("/d/a.toml", .table []), ("/d/m.toml", .table [])],
   [("/d", entries)]⟩

/-- C7 amended: the resolver returns the union of direct valid-TOML file
matches and non-recursive directory expansions, deduplicated by path and
sorted in byte-lexicographic (case-sensitive) path order — only the
within-directory scan is ordered case-insensitively; the merged list is
re-sorted with `Vec::<PathBuf>::sort()` — so for a directory containing
`z.toml`, `a.toml`, `m.toml` (all lower case) the returned order is always
`a.toml, m.toml, z.toml` regardless of filesystem enumeration order, and
`.template.toml`/non-`.toml` entries never appear. -/
theorem collect_includes_deterministic_sorted :
    (∀ (fs : FileSystem) (includes : List String) (config_dir : String)
       (ds l : List String),
      dirScans fs ((resolve_include_paths includes config_dir).filter
          (fun p => !fs.isFile p && fs.isDir p)) = .ok ds →
      collect_includes fs includes config_dir = .ok l →
      List.Sorted pathLeR l
      ∧ l.Nodup
      ∧ (∀ p, p ∈ l ↔ p ∈ ((resolve_include_paths includes config_dir).filter
            (fun p => fs.isFile p)).filter is_valid_toml_file_path ++ ds)
      ∧ (∀ p ∈ l, is_valid_toml_file_path p = true))
    ∧ (∀ entries : List String,
        entries.Perm ["/d/z.toml", "/d/a.toml", "/d/m.toml"] →
        collect_includes (fsZam entries) ["/d"] "/c"
          = .ok ["/d/a.toml", "/d/m.toml", "/d/z.toml"]) := by
  constructor
  · intro fs includes config_dir ds l hds hok
    simp only [collect_includes, hds, Except.bind, bind] at hok
    obtain rfl : sortPaths (dedupKeepFirst
        (((resolve_include_paths includes config_dir).filter
            (fun p => fs.isFile p)).filter is_valid_toml_file_path ++ ds)) = l := by
      injection hok
    refine ⟨sortPaths_sorted _, ?_, ?_, ?_⟩
    · exact (sortPaths_perm _).symm.nodup (nodup_dedupKeepFirst _)
    · intro p
      rw [(sortPaths_perm _).mem_iff, mem_dedupKeepFirst]
    · intro p hp
      rw [(sortPaths_perm _).mem_iff, mem_dedupKeepFirst] at hp
      rcases List.mem_append.mp hp with hp | hp
      · exact (List.mem_filter.mp hp).2
      · exact dirScans_valid hds p hp
  · intro entries hperm
    have hfilter : entries.filter
        (fun p => !(fsZam entries).isDir p && is_valid_toml_file_path p)
        = entries := by
      rw [List.filter_eq_self]
      intro a ha
      have ha' : a ∈ ["/d/z.toml", "/d/a.toml", "/d/m.toml"] := hperm.subset ha
      fin_cases ha' <;> rfl
    have hfind : find_toml_files_in_dir (fsZam entries) "/d"
        = .ok (some (sortByLowerFileName entries)) := by
      have h1 : (fsZam entries).isFile "/d" = false := rfl
      have h2 : (fsZam entries).isDir "/d" = true := rfl
      have h3 : alGet (fsZam entries).dirs "/d" = some entries := rfl
      simp [find_toml_files_in_dir, h1, h2, h3, hfilter]
    have hscan : dirScans (fsZam entries)
        ((resolve_include_paths ["/d"] "/c").filter
          (fun p => !(fsZam entries).isFile p && (fsZam entries).isDir p))
        = .ok (sortByLowerFileName entries) := by
      have : (resolve_include_paths ["/d"] "/c").filter
          (fun p => !(fsZam entries).isFile p && (fsZam entries).isDir p)
          = ["/d"] := rfl
      rw [this]
      simp [dirScans, hfind, Except.bind, bind, Option.getD]
    simp only [collect_includes, hscan, Except.bind, bind]
    have hcf : ((resolve_include_paths ["/d"] "/c").filter
        (fun p => (fsZam entries).isFile p)).filter is_valid_toml_file_path
        = [] := rfl
    rw [hcf]
    have hperm2 : (sortByLowerFileName entries).Perm
        ["/d/z.toml", "/d/a.toml", "/d/m.toml"] :=
      (List.perm_insertionSort lowerNameLe entries).trans hperm
    have hnodup2 : (sortByLowerFileName entries).Nodup :=
      hperm2.symm.nodup (by decide)
    rw [List.nil_append, dedupKeepFirst_of_nodup hnodup2]
    have hfinal : sortPaths (sortByLowerFileName entries)
        = ["/d/a.toml", "/d/m.toml", "/d/z.toml"] := by
      refine List.eq_of_perm_of_sorted
        ((sortPaths_perm _).trans (hperm2.trans (by decide)))
        (sortPaths_sorted _) (by decide)
    rw [hfinal]

/-- C7 witness: a concrete run with one direct file match and one directory,
plus the mixed-order directory at a concrete enumeration order. -/
theorem collect_includes_deterministic_sorted_witness :
    (List.Sorted pathLeR ["/d/B.toml", "/d/a.toml"]
      ∧ (["/d/B.toml", "/d/a.toml"] : List String).Nodup
      ∧ (∀ p, p ∈ (["/d/B.toml", "/d/a.toml"] : List String) ↔
          p ∈ ((resolve_include_paths ["/d"] "/c").filter
              (fun p => fsMixedCase.isFile p)).filter is_valid_toml_file_path
            ++ ["/d/a.toml", "/d/B.toml"])
      ∧ (∀ p ∈ (["/d/B.toml", "/d/a.toml"] : List String),
          is_valid_toml_file_path p = true))
    ∧ collect_includes (fsZam ["/d/m.toml", "/d/z.toml", "/d/a.toml"])
        ["/d"] "/c" = .ok ["/d/a.toml", "/d/m.toml", "/d/z.toml"] :=
  ⟨collect_includes_deterministic_sorted.1 fsMixedCase ["/d"] "/c"
      ["/d/a.toml", "/d/B.toml"] ["/d/B.toml", "/d/a.toml"] (by rfl) (by rfl),
   collect_includes_deterministic_sorted.2 ["/d/m.toml", "/d/z.toml", "/d/a.toml"]
      (by decide)⟩

/-! ## Loader state invariants -/

/-- How one loader call may change the load state: `visited_paths` and
`known_files` only grow by appending (so existing indices are stable), and
both stay duplicate-free. -/
def StateExtends (s s' : ConfigLoadState) : Prop :=
  (∃ Δ, s'.visited_paths = s.visited_paths ++ Δ)
  ∧ (∃ Δ, s'.config_files = s.config_files ++ Δ)
  ∧ (s.visited_paths.Nodup → s'.visited_paths.Nodup)
  ∧ (s.config_files.Nodup → s'.config_files.Nodup)

theorem StateExtends.refl (s : ConfigLoadState) : StateExtends s s :=
  ⟨⟨[], by simp⟩, ⟨[], by simp⟩, id, id⟩

theorem StateExtends.trans {a b c : ConfigLoadState}
    (h1 : StateExtends a b) (h2 : StateExtends b c) : StateExtends a c := by
  obtain ⟨⟨Δ1, hv1⟩, ⟨Γ1, hc1⟩, hnv1, hnc1⟩ := h1
  obtain ⟨⟨Δ2, hv2⟩, ⟨Γ2, hc2⟩, hnv2, hnc2⟩ := h2
  exact ⟨⟨Δ1 ++ Δ2, by rw [hv2, hv1, List.append_assoc]⟩,
    ⟨Γ1 ++ Γ2, by rw [hc2, hc1, List.append_assoc]⟩,
    fun h => hnv2 (hnv1 h), fun h => hnc2 (hnc1 h)⟩

/-- Changing only the warnings extends the state trivially. -/
theorem StateExtends.warnings {s : ConfigLoadState} (w : List ConfigLoadWarning) :
    StateExtends s { s with warnings := w } :=
  ⟨⟨[], by simp⟩, ⟨[], by simp⟩, id, id⟩

theorem findIdx?_none_iff (p : String) : ∀ (l : List String) (i : Nat),
    List.findIdx? (fun q => q = p) l i = Option.none ↔ p ∉ l := by
  intro l
  induction l with
  | nil => intro i; simp
  | cons q rest ih =>
    intro i
    rw [List.findIdx?_cons]
    by_cases hq : q = p
    · subst hq; simp
    · have hd : (decide (q = p)) = false := by simp [hq]
      rw [hd]
      simp only [Bool.false_eq_true, if_false, List.mem_cons]
      rw [ih (i + 1)]
      constructor
      · rintro hnm (h1 | h2)
        · exact hq h1.symm
        · exact hnm h2
      · intro hn h2
        exact hn (Or.inr h2)

theorem indexOfPath_eq_none_iff (files : List String) (p : String) :
    indexOfPath files p = Option.none ↔ p ∉ files :=
  findIdx?_none_iff p files 0

theorem insertFull_extends (files : List String) (p : String) :
    (∃ Δ, (insertFull files p).2 = files ++ Δ)
    ∧ (files.Nodup → (insertFull files p).2.Nodup) := by
  unfold insertFull
  cases hidx : indexOfPath files p with
  | some i => exact ⟨⟨[], by simp⟩, id⟩
  | none =>
    have hnm : p ∉ files := (indexOfPath_eq_none_iff files p).mp hidx
    refine ⟨⟨[p], rfl⟩, fun hnd => ?_⟩
    simp [List.nodup_append, hnd, hnm]

/-- Every successful loader call only extends the load state: paths are
appended, never removed or reordered, and no duplicates are introduced. -/
theorem loader_state_extends : ∀ fuel : Nat,
    (∀ (fs : FileSystem) (params : ConfigLoadParams) (state : ConfigLoadState)
       (path : String) (src : Option String) (depth : Nat)
       (out : List TomlFileData × ConfigLoadState),
      load_config_recursive fs params fuel state path src depth = .ok out →
      StateExtends state out.2)
    ∧ (∀ (fs : FileSystem) (params : ConfigLoadParams) (state : ConfigLoadState)
       (doc : TomlEditItem) (fidx : Nat) (path : String) (depth : Nat)
       (out : List TomlFileData × ConfigLoadState),
      load_config_recursive_from_content fs params fuel state doc fidx path depth = .ok out →
      StateExtends state out.2)
    ∧ (∀ (fs : FileSystem) (params : ConfigLoadParams) (paths : List String)
       (state : ConfigLoadState) (parent : String) (depth : Nat)
       (out : List TomlFileData × ConfigLoadState),
      loadIncludesAux fs params fuel paths state parent depth = .ok out →
      StateExtends state out.2) := by
  have hfc_step : ∀ fuel,
      (∀ fs params paths state parent depth out,
        loadIncludesAux fs params fuel paths state parent depth = .ok out →
        StateExtends state out.2) →
      (∀ fs params state doc fidx path depth out,
        load_config_recursive_from_content fs params fuel state doc fidx path depth = .ok out →
        StateExtends state out.2) := by
    intro fuel hli fs params state doc fidx path depth out h
    unfold load_config_recursive_from_content at h
    cases hcp : collect_paths doc params.prefix_keys fidx with
    | error e => rw [hcp] at h; exact Except.noConfusion h
    | ok cfg =>
      obtain ⟨config, result⟩ := cfg
      rw [hcp] at h
      simp only at h
      cases hcti : collect_toml_includes fs config.includes params.config_dir
        ((if result = TraversalResult.pruned then
            { state with warnings := state.warnings ++
              [ConfigLoadWarning.pruned path] }
          else state).warnings ++
          ((config.values.filter (fun e => e.2.1.isNull)).map
            (fun e => ConfigLoadWarning.nullValueDetected e.1 path))) with
      | error e => rw [hcti] at h; exact Except.noConfusion h
      | ok cti =>
        obtain ⟨include_paths, w⟩ := cti
        rw [hcti] at h
        simp only at h
        cases hla : loadIncludesAux fs params fuel include_paths
            { (if result = TraversalResult.pruned then
                { state with warnings := state.warnings ++
                  [ConfigLoadWarning.pruned path] }
              else state) with warnings := w } path depth with
        | error e => rw [hla] at h; exact Except.noConfusion h
        | ok la =>
          rw [hla] at h
          simp only at h
          obtain rfl : (config :: la.1, la.2) = out := by
            obtain ⟨subs, st4⟩ := la
            injection h
          have h1 : StateExtends state
              { (if result = TraversalResult.pruned then
                  { state with warnings := state.warnings ++
                    [ConfigLoadWarning.pruned path] }
                else state) with warnings := w } := by
            split <;> exact StateExtends.warnings w
          exact h1.trans (hli fs params include_paths _ path depth la hla)
  intro fuel
  induction fuel with
  | zero =>
    have hli : ∀ fs params paths state parent depth out,
        loadIncludesAux fs params 0 paths state parent depth = .ok out →
        StateExtends state out.2 := by
      intro fs params paths state parent depth out h
      cases paths with
      | nil =>
        obtain rfl : (([] : List TomlFileData), state) = out := by
          unfold loadIncludesAux at h
          injection h
        exact StateExtends.refl state
      | cons p rest =>
        obtain rfl : (([] : List TomlFileData), state) = out := by
          unfold loadIncludesAux at h
          injection h
        exact StateExtends.refl state
    have hfc := hfc_step 0 hli
    refine ⟨?_, hfc, hli⟩
    intro fs params state path src depth out h
    unfold load_config_recursive at h
    split at h
    · obtain rfl : (([] : List TomlFileData), _) = out := by injection h
      exact StateExtends.warnings _
    · split at h
      · obtain rfl : (([] : List TomlFileData), _) = out := by injection h
        exact StateExtends.warnings _
      · rename_i hdepth hvis
        cases hget : alGet fs.files path with
        | none => rw [hget] at h; exact Except.noConfusion h
        | some doc =>
          rw [hget] at h
          simp only at h
          have hmid : StateExtends state
              { state with
                visited_paths := state.visited_paths ++ [path],
                config_files := (insertFull state.config_files path).2 } := by
            obtain ⟨he, hn⟩ := insertFull_extends state.config_files path
            exact ⟨⟨[path], rfl⟩, he, fun hnd => by
              simp [List.nodup_append, hnd, hvis], hn⟩
          exact hmid.trans (hfc fs params _ doc _ path depth out h)
  | succ f ihf =>
    have hli : ∀ fs params paths state parent depth out,
        loadIncludesAux fs params (f + 1) paths state parent depth = .ok out →
        StateExtends state out.2 := by
      intro fs params paths
      induction paths with
      | nil =>
        intro state parent depth out h
        obtain rfl : (([] : List TomlFileData), state) = out := by
          unfold loadIncludesAux at h
          injection h
        exact StateExtends.refl state
      | cons p rest ihp =>
        intro state parent depth out h
        unfold loadIncludesAux at h
        cases hl : load_config_recursive fs params f state p (some parent) (depth + 1) with
        | error e => rw [hl] at h; exact Except.noConfusion h
        | ok l1 =>
          rw [hl] at h
          simp only at h
          cases hr : loadIncludesAux fs params (f + 1) rest l1.2 parent depth with
          | error e =>
            obtain ⟨cfgs, st'⟩ := l1
            rw [hr] at h
            exact Except.noConfusion h
          | ok r1 =>
            obtain ⟨cfgs, st'⟩ := l1
            rw [hr] at h
            simp only at h
            obtain rfl : (cfgs ++ r1.1, r1.2) = out := by
              obtain ⟨more, st''⟩ := r1
              injection h
            exact (ihf.1 fs params state p (some parent) (depth + 1) (cfgs, st') hl).trans
              (ihp st' parent depth r1 hr)
    have hfc := hfc_step (f + 1) hli
    refine ⟨?_, hfc, hli⟩
    intro fs params state path src depth out h
    unfold load_config_recursive at h
    split at h
    · obtain rfl : (([] : List TomlFileData), _) = out := by injection h
      exact StateExtends.warnings _
    · split at h
      · obtain rfl : (([] : List TomlFileData), _) = out := by injection h
        exact StateExtends.warnings _
      · rename_i hdepth hvis
        cases hget : alGet fs.files path with
        | none => rw [hget] at h; exact Except.noConfusion h
        | some doc =>
          rw [hget] at h
          simp only at h
          have hmid : StateExtends state
              { state with
                visited_paths := state.visited_paths ++ [path],
                config_files := (insertFull state.config_files path).2 } := by
            obtain ⟨he, hn⟩ := insertFull_extends state.config_files path
            exact ⟨⟨[path], rfl⟩, he, fun hnd => by
              simp [List.nodup_append, hnd, hvis], hn⟩
          exact hmid.trans (hfc fs params _ doc _ path depth out h)

/-! ## C5 (amended) — idempotent dedup invariant -/

/-- A one-file filesystem used by loader witnesses. -/
def fsSingle : FileSystem := ⟨[("/c/arcella.toml", .table [])], []⟩

/-- C5 amended: in every resolution run the load state only ever grows by
appending — `known_files` assigns each distinct path at most one, stable
index (duplicate-free, never reordered), and likewise for the visited-set
that guards reads, so no path is read or parsed twice; and every subsequent
reference to an already-seen path at inclusion depth within
`MAX_CONFIG_DEPTH` loads nothing, returns an empty result, and emits a
`DuplicateInclude` warning carrying the path and the including file (beyond
the depth limit the depth guard cuts the reference off with `MaxDepthReached`
first — see the counterexample — still without re-reading). -/
theorem load_dedup_invariant :
    (∀ (fs : FileSystem) (params : ConfigLoadParams) (fuel : Nat)
       (state : ConfigLoadState) (path : String) (src : Option String)
       (depth : Nat) (out : List TomlFileData × ConfigLoadState),
      load_config_recursive fs params fuel state path src depth = .ok out →
      StateExtends state out.2)
    ∧ (∀ (fs : FileSystem) (params : ConfigLoadParams) (fuel : Nat)
       (state : ConfigLoadState) (path : String) (src : Option String)
       (depth : Nat),
      ¬ depth > MAX_CONFIG_DEPTH → path ∈ state.visited_paths →
      load_config_recursive fs params fuel state path src depth
        = .ok ([], { state with warnings := state.warnings ++
            [ConfigLoadWarning.duplicateInclude path (src.getD path)] })) := by
  constructor
  · intro fs params fuel
    exact (loader_state_extends fuel).1 fs params
  · intro fs params fuel state path src depth h1 h2
    unfold load_config_recursive
    rw [if_neg h1, if_pos h2]

/-- C5 witness: a fresh single-file run extends the empty state, and a repeat
reference to that file at depth 1 yields exactly a `DuplicateInclude`. -/
theorem load_dedup_invariant_witness :
    StateExtends ⟨[], [], []⟩
      ([({ includes := [], values := [] } : TomlFileData)],
        (⟨["/c/arcella.toml"], ["/c/arcella.toml"], []⟩ : ConfigLoadState)).2
    ∧ load_config_recursive fsSingle chainParams 7
        ⟨["/c/arcella.toml"], ["/c/arcella.toml"], []⟩ "/c/arcella.toml"
        (some "/c/other.toml") 1
      = .ok ([], { config_files := ["/c/arcella.toml"],
                   visited_paths := ["/c/arcella.toml"],
                   warnings := [ConfigLoadWarning.duplicateInclude
                     "/c/arcella.toml" "/c/other.toml"] }) :=
  ⟨load_dedup_invariant.1 fsSingle chainParams LOAD_FUEL ⟨[], [], []⟩
      "/c/arcella.toml" Option.none 0
      ([{ includes := [], values := [] }],
        ⟨["/c/arcella.toml"], ["/c/arcella.toml"], []⟩)
      (by simp [load_config_recursive_from_file, load_config_recursive,
        load_config_recursive_from_content, loadIncludesAux, LOAD_FUEL,
        MAX_CONFIG_DEPTH, fsSingle, chainParams,
        collect_paths, collect_paths_recursive, table_to_value_map_recursive,
        MAX_TOML_DEPTH, alGet, insertFull, indexOfPath,
        collect_toml_includes, collectTomlAux, resolve_include_paths,
        dedupKeepFirst, sortPaths, List.insertionSort, Value.isNull,
        Except.bind, bind, Except.pure, pure]),
   load_dedup_invariant.2 fsSingle chainParams 7
      ⟨["/c/arcella.toml"], ["/c/arcella.toml"], []⟩ "/c/arcella.toml"
      (some "/c/other.toml") 1 (by decide) (by decide)⟩

/-! ## Chain scenarios for C6 -/

/-- File name of the `i`-th chain file: `i+1` letters `a` followed by
`.toml`. -/
def chainFileName (i : Nat) : String := ⟨List.replicate (i + 1) 'a' ++ ".toml".data⟩

/-- Path of the `i`-th chain file under the base directory `/c`. -/
def chainPath (i : Nat) : String := pathJoin "/c" (chainFileName i)

/-- Document of the `i`-th file of an `N`-file chain: it includes the next
file, except for the last file of the chain. -/
def chainDoc (N i : Nat) : TomlEditItem :=
  if i + 1 < N then .table [("includes", .value (.str (chainFileName (i + 1))))]
  else .table []

/-- The filesystem holding an `N`-file chain. -/
def chainFS (N : Nat) : FileSystem :=
  ⟨(List.range N).map (fun i => (chainPath i, chainDoc N i)), []⟩

/-- The first `k` chain paths, in order. -/
def pathsUpTo (k : Nat) : List String := (List.range k).map chainPath

theorem chainFileName_not_absolute (i : Nat) :
    pathIsAbsolute (chainFileName i) = false := by
  simp [pathIsAbsolute, chainFileName, List.replicate_succ]

theorem chainPath_data (i : Nat) :
    (chainPath i).data = '/' :: 'c' :: '/' :: (List.replicate (i + 1) 'a' ++ ".toml".data) := by
  rw [chainPath, pathJoin, chainFileName_not_absolute i]
  simp [chainFileName]

theorem chainPath_inj {i j : Nat} (h : chainPath i = chainPath j) : i = j := by
  have hd := congrArg String.data h
  rw [chainPath_data, chainPath_data] at hd
  have hlen := congrArg List.length hd
  simp at hlen
  omega

/-! ### Path and file-name facts about the chain family -/

theorem takeWhile_append_of_all {p : Char → Bool} :
    ∀ (xs : List Char) (y : Char) (ys : List Char),
    (∀ x ∈ xs, p x = true) → p y = false →
    (xs ++ y :: ys).takeWhile p = xs := by
  intro xs
  induction xs with
  | nil =>
    intro y ys _ hy
    simp [List.takeWhile_cons, hy]
  | cons a as ih =>
    intro y ys hall hy
    have ha : p a = true := hall a (by simp)
    simp only [List.cons_append, List.takeWhile_cons, ha, if_true]
    rw [ih y ys (fun x hx => hall x (by simp [hx])) hy]

theorem chain_no_slash (i : Nat) :
    ∀ c ∈ List.replicate (i + 1) 'a' ++ ".toml".data, c ≠ '/' := by
  intro c hc
  rcases List.mem_append.mp hc with h | h
  · rw [List.eq_of_mem_replicate h]; decide
  · have h' : c ∈ ['.', 't', 'o', 'm', 'l'] := h
    fin_cases h' <;> decide

theorem chainFileName_reverse (i : Nat) :
    (List.replicate (i + 1) 'a' ++ ".toml".data).reverse
      = ['l', 'm', 'o', 't'] ++ '.' :: List.replicate (i + 1) 'a' := by
  rw [List.reverse_append, List.reverse_replicate]
  rfl

theorem chainPath_fileName (i : Nat) :
    pathFileName (chainPath i) = chainFileName i := by
  unfold pathFileName
  rw [chainPath_data]
  have h1 : ('/' :: 'c' :: '/' :: (List.replicate (i + 1) 'a' ++ ".toml".data)).reverse
      = (List.replicate (i + 1) 'a' ++ ".toml".data).reverse ++ '/' :: ['c', '/'] := by
    simp
  rw [h1, takeWhile_append_of_all _ '/' ['c', '/'] ?hall (by decide)]
  · rw [List.reverse_reverse]; rfl
  case hall =>
    intro c hc
    rw [List.mem_reverse] at hc
    simp only [decide_eq_true_eq]
    exact chain_no_slash i c hc

theorem afterDot_chain (i : Nat) :
    ((['l', 'm', 'o', 't'] ++ '.' :: List.replicate (i + 1) 'a').takeWhile
      (fun c => c ≠ '.')) = ['l', 'm', 'o', 't'] := by
  apply takeWhile_append_of_all
  · intro x hx; fin_cases hx <;> decide
  · decide

theorem chainPath_extension (i : Nat) :
    pathExtension (chainPath i) = some "toml" := by
  simp only [pathExtension, chainPath_fileName]
  rw [show (chainFileName i).data
        = List.replicate (i + 1) 'a' ++ ".toml".data from rfl,
     chainFileName_reverse, afterDot_chain]
  rw [if_neg ?h1, if_neg ?h2]
  · rfl
  case h1 => simp
  case h2 => simp

theorem chainFileName_lower (i : Nat) :
    (chainFileName i).data.map charLower = (chainFileName i).data := by
  show (List.replicate (i + 1) 'a' ++ ".toml".data).map charLower
      = List.replicate (i + 1) 'a' ++ ".toml".data
  rw [List.map_append, List.map_replicate,
    show charLower 'a' = 'a' from by decide,
    show ".toml".data.map charLower = ".toml".data from by decide]

theorem chainPath_not_template (i : Nat) :
    strEndsWith ⟨(pathFileName (chainPath i)).data.map charLower⟩
      TEMPLATE_TOML_SUFFIX = false := by
  rw [chainPath_fileName, chainFileName_lower]
  simp only [strEndsWith, TEMPLATE_TOML_SUFFIX, List.isSuffixOf]
  rw [show (chainFileName i).data
        = List.replicate (i + 1) 'a' ++ ".toml".data from rfl,
     chainFileName_reverse]
  rw [show (".template.toml".data).reverse
        = ['l', 'm', 'o', 't', '.', 'e', 't', 'a', 'l', 'p', 'm', 'e', 't', '.']
      from by decide]
  rw [List.replicate_succ]
  simp [List.isPrefixOf]

theorem chainPath_valid (i : Nat) :
    is_valid_toml_file_path (chainPath i) = true := by
  simp only [is_valid_toml_file_path, chainPath_extension]
  rw [show eqIgnoreAsciiCase "toml" "toml" = true from by decide]
  simp [chainPath_not_template]

/-! ### Chain filesystem lookups -/

theorem alGet_chain_none (g : Nat → TomlEditItem) :
    ∀ (n d : Nat), ¬ d < n →
    alGet ((List.range n).map (fun i => (chainPath i, g i))) (chainPath d)
      = Option.none := by
  intro n
  induction n with
  | zero => intro d _; rfl
  | succ m ih =>
    intro d hd
    rw [List.range_succ, List.map_append, alGet_append, ih d (by omega)]
    have hne : ¬ chainPath m = chainPath d := fun h => by
      have := chainPath_inj h; omega
    simp [alGet, hne]

theorem alGet_chain_some (g : Nat → TomlEditItem) :
    ∀ (n d : Nat), d < n →
    alGet ((List.range n).map (fun i => (chainPath i, g i))) (chainPath d)
      = some (g d) := by
  intro n
  induction n with
  | zero => intro d h; exact absurd h (by omega)
  | succ m ih =>
    intro d hd
    rw [List.range_succ, List.map_append, alGet_append]
    by_cases hdm : d < m
    · rw [ih d hdm]
    · have hdm' : d = m := by omega
      subst hdm'
      rw [alGet_chain_none g d d (by omega)]
      simp [alGet]

theorem alGet_chainFS (N d : Nat) (hd : d < N) :
    alGet (chainFS N).files (chainPath d) = some (chainDoc N d) :=
  alGet_chain_some (chainDoc N) N d hd

theorem chainFS_isFile (N d : Nat) (hd : d < N) :
    (chainFS N).isFile (chainPath d) = true := by
  rw [FileSystem.isFile, alGet_chainFS N d hd]; rfl

/-! ### Include resolution along the chain -/

theorem cti_nil (fs : FileSystem) (dir : String) (w : List ConfigLoadWarning) :
    collect_toml_includes fs [] dir w = .ok ([], w) := by
  simp [collect_toml_includes, resolve_include_paths, dedupKeepFirst,
    collectTomlAux, sortPaths, List.insertionSort, Except.bind, bind,
    Except.pure, pure]

theorem cti_chain (N d : Nat) (hd : d < N) (w : List ConfigLoadWarning) :
    collect_toml_includes (chainFS N) [chainFileName d] "/c" w
      = .ok ([chainPath d], w) := by
  have hres : resolve_include_paths [chainFileName d] "/c" = [chainPath d] := by
    simp [resolve_include_paths, dedupKeepFirst, chainPath]
  simp only [collect_toml_includes, hres]
  simp [collectTomlAux, chainFS_isFile N d hd, chainPath_valid, sortPaths,
    List.insertionSort, List.orderedInsert, dedupKeepFirst, Except.bind, bind,
    Except.pure, pure]

theorem cp_incDoc (fn : String) (fidx : Nat) :
    collect_paths (incDoc fn) ["arcella"] fidx
      = .ok (⟨[fn], []⟩, TraversalResult.full) := by
  simp [collect_paths, incDoc, collect_paths_recursive,
    table_to_value_map_recursive, includesFrom, TomlEditValue.asStr,
    MAX_TOML_DEPTH, INCLUDES_KEY, Except.bind, bind, Except.pure, pure,
    Option.toList]

theorem cp_emptyTable (fidx : Nat) :
    collect_paths (.table []) ["arcella"] fidx
      = .ok (⟨[], []⟩, TraversalResult.full) := by
  simp [collect_paths, collect_paths_recursive, table_to_value_map_recursive,
    MAX_TOML_DEPTH, Except.bind, bind, Except.pure, pure]

/-! ### Visited-set and index bookkeeping along the chain -/

theorem pathsUpTo_succ (d : Nat) :
    pathsUpTo (d + 1) = pathsUpTo d ++ [chainPath d] := by
  simp [pathsUpTo, List.range_succ]

theorem chainPath_not_mem_pathsUpTo (d : Nat) : chainPath d ∉ pathsUpTo d := by
  intro h
  obtain ⟨i, hi, he⟩ := List.mem_map.mp h
  have := chainPath_inj he
  rw [List.mem_range] at hi
  omega

theorem insertFull_pathsUpTo (d : Nat) :
    insertFull (pathsUpTo d) (chainPath d) = (d, pathsUpTo (d + 1)) := by
  have hnone : indexOfPath (pathsUpTo d) (chainPath d) = Option.none :=
    (indexOfPath_eq_none_iff _ _).mpr (chainPath_not_mem_pathsUpTo d)
  rw [insertFull, hnone, pathsUpTo_succ]
  simp [pathsUpTo]

/-! ### Loader step equations -/

theorem load_unfold_read (fs : FileSystem) (params : ConfigLoadParams)
    (fuel : Nat) (state : ConfigLoadState) (path : String) (src : Option String)
    (depth : Nat) (doc : TomlEditItem)
    (hdep : ¬ depth > MAX_CONFIG_DEPTH) (hvis : path ∉ state.visited_paths)
    (hget : alGet fs.files path = some doc) :
    load_config_recursive fs params fuel state path src depth
      = load_config_recursive_from_content fs params fuel
          { state with
            visited_paths := state.visited_paths ++ [path],
            config_files := (insertFull state.config_files path).2 }
          doc (insertFull state.config_files path).1 path depth := by
  unfold load_config_recursive
  rw [if_neg hdep, if_neg hvis, hget]

theorem load_unfold_depth (fs : FileSystem) (params : ConfigLoadParams)
    (fuel : Nat) (state : ConfigLoadState) (path : String) (src : Option String)
    (depth : Nat) (hdep : depth > MAX_CONFIG_DEPTH) :
    load_config_recursive fs params fuel state path src depth
      = .ok ([], { state with warnings := state.warnings ++
          [ConfigLoadWarning.maxDepthReached path] }) := by
  unfold load_config_recursive
  rw [if_pos hdep]

theorem from_content_run (fs : FileSystem) (params : ConfigLoadParams)
    (fuel : Nat) (state : ConfigLoadState) (doc : TomlEditItem) (fidx : Nat)
    (path : String) (depth : Nat) (incs ipaths : List String)
    (hcp : collect_paths doc params.prefix_keys fidx
      = .ok (⟨incs, []⟩, TraversalResult.full))
    (hcti : collect_toml_includes fs incs params.config_dir state.warnings
      = .ok (ipaths, state.warnings)) :
    load_config_recursive_from_content fs params fuel state doc fidx path depth
      = match loadIncludesAux fs params fuel ipaths state path depth with
        | .error e => .error e
        | .ok (subs, st4) => .ok (⟨incs, []⟩ :: subs, st4) := by
  unfold load_config_recursive_from_content
  rw [hcp]
  simp only [List.filter_nil, List.map_nil, List.append_nil]
  rw [if_neg (show ¬ (TraversalResult.full = TraversalResult.pruned) from by
    decide)]
  rw [hcti]



theorem loadIncludesAux_nil (fs : FileSystem) (params : ConfigLoadParams)
    (fuel : Nat) (state : ConfigLoadState) (parent : String) (depth : Nat) :
    loadIncludesAux fs params fuel [] state parent depth = .ok ([], state) := by
  conv_lhs => unfold loadIncludesAux
  cases fuel <;> rfl

theorem loadIncludesAux_cons (fs : FileSystem) (params : ConfigLoadParams)
    (f : Nat) (p : String) (rest : List String) (state : ConfigLoadState)
    (parent : String) (depth : Nat) :
    loadIncludesAux fs params (f + 1) (p :: rest) state parent depth
      = match load_config_recursive fs params f state p (some parent)
          (depth + 1) with
        | .error e => .error e
        | .ok (cfgs, st') =>
          match loadIncludesAux fs params (f + 1) rest st' parent depth with
          | .error e => .error e
          | .ok (more, st'') => .ok (cfgs ++ more, st'') := by
  conv_lhs => unfold loadIncludesAux

/-- Loaded data of a linear chain whose files `d, d+1, ...` all lie strictly
below the depth limit's cut: each records one include, until the walk is cut
at depth 6. -/
def chainDataHigh (d : Nat) : List TomlFileData :=
  if _h : d ≤ 5 then
    ⟨[chainFileName (d + 1)], []⟩ :: chainDataHigh (d + 1)
  else []
termination_by 6 - d
decreasing_by omega

theorem chainDataHigh_cons (d : Nat) (hd : d ≤ 5) :
    chainDataHigh d = ⟨[chainFileName (d + 1)], []⟩ :: chainDataHigh (d + 1) := by
  conv_lhs => unfold chainDataHigh
  rw [dif_pos hd]

theorem chainDataHigh_top : chainDataHigh 6 = [] := by
  unfold chainDataHigh
  rw [dif_neg (by omega)]

/-- Loaded data of an `N`-file chain entered at file `d`, `N` within the depth
limit: one include per file until the last file, which is empty. -/
def chainDataLow (N d : Nat) : List TomlFileData :=
  if _h : d + 1 < N then
    ⟨[chainFileName (d + 1)], []⟩ :: chainDataLow N (d + 1)
  else [⟨[], []⟩]
termination_by N - d
decreasing_by omega

theorem chainDataLow_cons (N d : Nat) (hd : d + 1 < N) :
    chainDataLow N d = ⟨[chainFileName (d + 1)], []⟩ :: chainDataLow N (d + 1) := by
  conv_lhs => unfold chainDataLow
  rw [dif_pos hd]

theorem chainDataLow_last (N d : Nat) (hd : ¬ d + 1 < N) :
    chainDataLow N d = [⟨[], []⟩] := by
  unfold chainDataLow
  rw [dif_neg hd]

theorem chainRunHigh (N : Nat) (hN : 7 ≤ N) :
    ∀ k d, d + k = 6 → ∀ (st : ConfigLoadState) (src : Option String),
    st.config_files = pathsUpTo d → st.visited_paths = pathsUpTo d →
    load_config_recursive (chainFS N) chainParams (8 - d) st (chainPath d) src d
    = .ok (chainDataHigh d,
        ⟨pathsUpTo 6, pathsUpTo 6,
         st.warnings ++ [ConfigLoadWarning.maxDepthReached (chainPath 6)]⟩) := by
  intro k
  induction k with
  | zero =>
    intro d hd st src hcf hvp
    have h6 : d = 6 := by omega
    subst h6
    obtain ⟨cf, vp, w⟩ := st
    have hcf' : cf = pathsUpTo 6 := hcf
    have hvp' : vp = pathsUpTo 6 := hvp
    subst hcf'
    subst hvp'
    rw [load_unfold_depth _ _ _ _ _ _ _ (by decide), chainDataHigh_top]
  | succ k ih =>
    intro d hd st src hcf hvp
    have hd5 : ¬ d > MAX_CONFIG_DEPTH := by unfold MAX_CONFIG_DEPTH; omega
    have hdN1 : d + 1 < N := by omega
    have hdoc : chainDoc N d = incDoc (chainFileName (d + 1)) := by
      unfold chainDoc incDoc
      rw [if_pos hdN1]
    have hvis : chainPath d ∉ st.visited_paths := by
      rw [hvp]; exact chainPath_not_mem_pathsUpTo d
    have hget : alGet (chainFS N).files (chainPath d) = some (chainDoc N d) :=
      alGet_chainFS N d (by omega)
    rw [load_unfold_read (chainFS N) chainParams (8 - d) st (chainPath d) src d
      (chainDoc N d) hd5 hvis hget]
    rw [hcf, insertFull_pathsUpTo d, hvp, ← pathsUpTo_succ d]
    rw [from_content_run (chainFS N) chainParams (8 - d) _ (chainDoc N d) _
      (chainPath d) d [chainFileName (d + 1)] [chainPath (d + 1)]
      (by rw [hdoc]; exact cp_incDoc _ _)
      (cti_chain N (d + 1) (by omega) _)]
    rw [show (8 : Nat) - d = (8 - (d + 1)) + 1 from by omega]
    rw [loadIncludesAux_cons]
    have hih := ih (d + 1) (by omega)
      { st with visited_paths := pathsUpTo (d + 1),
                config_files := (d, pathsUpTo (d + 1)).2 }
      (some (chainPath d)) rfl rfl
    simp only [hih, loadIncludesAux_nil, List.append_nil]
    rw [chainDataHigh_cons d (by omega)]

theorem chainRunLow (N : Nat) (hN6 : N ≤ 6) :
    ∀ k d, d + k + 1 = N → ∀ (st : ConfigLoadState) (src : Option String),
    st.config_files = pathsUpTo d → st.visited_paths = pathsUpTo d →
    load_config_recursive (chainFS N) chainParams (8 - d) st (chainPath d) src d
    = .ok (chainDataLow N d, ⟨pathsUpTo N, pathsUpTo N, st.warnings⟩) := by
  intro k
  induction k with
  | zero =>
    intro d hd st src hcf hvp
    subst hd
    simp only [Nat.add_zero]
    have hd5 : ¬ d > MAX_CONFIG_DEPTH := by unfold MAX_CONFIG_DEPTH; omega
    have hdoc : chainDoc (d + 1) d = .table [] := by
      unfold chainDoc
      rw [if_neg (by omega)]
    have hvis : chainPath d ∉ st.visited_paths := by
      rw [hvp]; exact chainPath_not_mem_pathsUpTo d
    have hget : alGet (chainFS (d + 1)).files (chainPath d)
        = some (chainDoc (d + 1) d) :=
      alGet_chainFS (d + 1) d (by omega)
    rw [load_unfold_read (chainFS (d + 1)) chainParams (8 - d) st (chainPath d)
      src d (chainDoc (d + 1) d) hd5 hvis hget]
    rw [hcf, insertFull_pathsUpTo d, hvp, ← pathsUpTo_succ d]
    rw [from_content_run (chainFS (d + 1)) chainParams (8 - d) _
      (chainDoc (d + 1) d) _ (chainPath d) d [] []
      (by rw [hdoc]; exact cp_emptyTable _)
      (cti_nil _ _ _)]
    rw [loadIncludesAux_nil]
    rw [chainDataLow_last (d + 1) d (by omega)]
  | succ k ih =>
    intro d hd st src hcf hvp
    have hd5 : ¬ d > MAX_CONFIG_DEPTH := by unfold MAX_CONFIG_DEPTH; omega
    have hdN1 : d + 1 < N := by omega
    have hdoc : chainDoc N d = incDoc (chainFileName (d + 1)) := by
      unfold chainDoc incDoc
      rw [if_pos hdN1]
    have hvis : chainPath d ∉ st.visited_paths := by
      rw [hvp]; exact chainPath_not_mem_pathsUpTo d
    have hget : alGet (chainFS N).files (chainPath d) = some (chainDoc N d) :=
      alGet_chainFS N d (by omega)
    rw [load_unfold_read (chainFS N) chainParams (8 - d) st (chainPath d) src d
      (chainDoc N d) hd5 hvis hget]
    rw [hcf, insertFull_pathsUpTo d, hvp, ← pathsUpTo_succ d]
    rw [from_content_run (chainFS N) chainParams (8 - d) _ (chainDoc N d) _
      (chainPath d) d [chainFileName (d + 1)] [chainPath (d + 1)]
      (by rw [hdoc]; exact cp_incDoc _ _)
      (cti_chain N (d + 1) (by omega) _)]
    rw [show (8 : Nat) - d = (8 - (d + 1)) + 1 from by omega]
    rw [loadIncludesAux_cons]
    have hih := ih (d + 1) (by omega)
      { st with visited_paths := pathsUpTo (d + 1),
                config_files := (d, pathsUpTo (d + 1)).2 }
      (some (chainPath d)) rfl rfl
    simp only [hih, loadIncludesAux_nil, List.append_nil]
    rw [chainDataLow_cons N d (by omega)]



/-- C6 amended: (i) a call at inclusion depth exceeding `MAX_CONFIG_DEPTH`
(5) does not read or index the file: it returns an empty result, leaves the
load state otherwise unchanged, and only appends a `MaxDepthReached` warning
for the path; (ii) hence a linear chain of `N` distinct files chained through
`includes` with `N ≥ 7` loads exactly the first `MAX_CONFIG_DEPTH + 1 = 6`
files (one include recorded per file) with a single `MaxDepthReached` warning
naming the seventh file — the boundary case `N = 6` still fits: (iii) a chain
of `N ≤ 6` files loads all `N` files with no warning at all. -/
theorem load_depth_monotonicity :
    (∀ (fs : FileSystem) (params : ConfigLoadParams) (fuel : Nat)
       (state : ConfigLoadState) (path : String) (src : Option String)
       (depth : Nat), depth > MAX_CONFIG_DEPTH →
      load_config_recursive fs params fuel state path src depth
        = .ok ([], { state with warnings := state.warnings ++
            [ConfigLoadWarning.maxDepthReached path] }))
    ∧ (∀ N, 7 ≤ N →
      load_config_recursive_from_file (chainFS N) chainParams ⟨[], [], []⟩
          (chainPath 0)
        = .ok (chainDataHigh 0,
            ⟨pathsUpTo 6, pathsUpTo 6,
             [ConfigLoadWarning.maxDepthReached (chainPath 6)]⟩))
    ∧ (∀ N, 1 ≤ N → N ≤ 6 →
      load_config_recursive_from_file (chainFS N) chainParams ⟨[], [], []⟩
          (chainPath 0)
        = .ok (chainDataLow N 0, ⟨pathsUpTo N, pathsUpTo N, []⟩)) := by
  refine ⟨load_unfold_depth, fun N hN => ?_, fun N hN1 hN6 => ?_⟩
  · exact chainRunHigh N hN 6 0 rfl ⟨[], [], []⟩ Option.none rfl rfl
  · exact chainRunLow N hN6 (N - 1) 0 (by omega) ⟨[], [], []⟩ Option.none rfl rfl

/-- C6 witness: the depth guard fires verbatim at depth 6; a seven-file chain
loads six files and warns about the seventh; a three-file chain loads all
three files warning-free. -/
theorem load_depth_monotonicity_witness :
    load_config_recursive fsSingle chainParams 7 ⟨[], [], []⟩ "/q.toml"
        Option.none 6
      = .ok ([], ⟨[], [], [ConfigLoadWarning.maxDepthReached "/q.toml"]⟩)
    ∧ load_config_recursive_from_file (chainFS 7) chainParams ⟨[], [], []⟩
        (chainPath 0)
      = .ok (chainDataHigh 0,
          ⟨pathsUpTo 6, pathsUpTo 6,
           [ConfigLoadWarning.maxDepthReached (chainPath 6)]⟩)
    ∧ load_config_recursive_from_file (chainFS 3) chainParams ⟨[], [], []⟩
        (chainPath 0)
      = .ok (chainDataLow 3 0, ⟨pathsUpTo 3, pathsUpTo 3, []⟩) :=
  ⟨load_depth_monotonicity.1 fsSingle chainParams 7 ⟨[], [], []⟩ "/q.toml"
      Option.none 6 (by decide),
   load_depth_monotonicity.2.1 7 (by omega),
   load_depth_monotonicity.2.2 3 (by omega) (by omega)⟩

end Arcella
